import Mathlib

/-!
Verification of the edge-based geodesic-distance solver
(`EdgeBasedGeodesicSolver.cpp`) against its natural-language specification.

The development shallowly embeds the solver's core pipeline:
  * the half-edge mesh data model (read-only integer-indexed queries),
  * `load_input` input validation,
  * `init_bfs_paths` multi-source breadth-first planning,
  * the Laplacian assembly and heat Gauss-Seidel loop of
    `gauss_seidel_init_gradients` / `compute_heatflow_residual`,
  * `prepare_integrate_geodesic_distance`, `update_Y`, `update_X`,
  * `integrate_geodesic_distance`.

Real (double-precision) arithmetic is modelled exactly over `ℚ`; square
roots (which appear only through Euclidean norms and the heat step size)
are abstracted as an explicit function parameter, so every definition
stays executable.
-/

namespace ParaHeat

/-- Exact-arithmetic model of a 3D double-precision vector. -/
structure V3 where
  x : ℚ
  y : ℚ
  z : ℚ
deriving DecidableEq

/-- Componentwise difference of 3-vectors. -/
def V3.sub (a b : V3) : V3 := ⟨a.x - b.x, a.y - b.y, a.z - b.z⟩

/-- Dot product of 3-vectors. -/
def V3.dot (a b : V3) : ℚ := a.x * b.x + a.y * b.y + a.z * b.z

/-- Cross product of 3-vectors. -/
def V3.cross (a b : V3) : V3 :=
  ⟨a.y * b.z - a.z * b.y, a.z * b.x - a.x * b.z, a.x * b.y - a.y * b.x⟩

/-- Squared Euclidean norm. -/
def V3.sqnorm (a : V3) : ℚ := a.dot a

/-- Negation of a 3-vector (`-e_vector` in the C++ code). -/
def V3.neg (a : V3) : V3 := ⟨-a.x, -a.y, -a.z⟩

/--
Read-only half-edge mesh interface, as consumed by the solver
(`surface_mesh` queries used in `EdgeBasedGeodesicSolver.cpp`):
vertex/edge/face counts, positions, the outgoing-halfedge circulator
`mesh.halfedges(v)`, the face circulators `mesh.halfedges(f)` and
`mesh.faces(v)`, and the incidence maps `to_vertex`, `from_vertex`,
`edge`, `halfedge(e,0)`, `opposite_halfedge`.
-/
structure Mesh where
  nv : Nat
  ne : Nat
  nf : Nat
  pos : Nat → V3
  halfedgesOf : Nat → List Nat
  facesOf : Nat → List Nat
  faceH : Nat → List Nat
  toV : Nat → Nat
  fromV : Nat → Nat
  edgeOf : Nat → Nat
  he0 : Nat → Nat
  opp : Nat → Nat

/-- `mesh.valence(v)`: number of outgoing halfedges at `v`. -/
def Mesh.valence (m : Mesh) (v : Nat) : Nat := (m.halfedgesOf v).length

/--
Mesh well-formedness facts used by the BFS proofs: circulated halfedges
of an in-range vertex start at that vertex and end at an in-range vertex.
-/
structure Mesh.WF (m : Mesh) : Prop where
  toV_lt : ∀ v < m.nv, ∀ h ∈ m.halfedgesOf v, m.toV h < m.nv
  fromV_eq : ∀ v < m.nv, ∀ h ∈ m.halfedgesOf v, m.fromV h = v

/--
`load_input` validation (the part after the file decoder succeeds):
reject a zero vertex/face/edge count, then reject any source vertex
index outside `[0, n_vertices)`.  Sources are `int`s in the C++ code,
hence modelled as `Int` here.
-/
def load_input (m : Mesh) (source_vertices : List Int) : Bool :=
  if m.nv = 0 || m.nf = 0 || m.ne = 0 then false
  else source_vertices.all (fun s => !(s < 0 || s ≥ (m.nv : Int)))

/-! ### `init_bfs_paths`: multi-source breadth-first planning -/

/--
Mutable state of `init_bfs_paths`: the `visited` flags, the filled part
of `bfs_vertex_list` paired with `transition_halfedge_idx` (an entry
`(v, some h)` records vertex `v` discovered through halfedge `h`;
`(v, none)` is a source, whose transition index stays `-1`), the
`bfs_laplacian_coef_addr` prefix built so far, and the `next_front`
being accumulated.
-/
structure BfsState where
  visited : List Bool
  order : List (Nat × Option Nat)
  lapAddr : List Nat
  nextFront : List Nat

/--
Body of the halfedge circulator in the BFS main loop: look at
`next_v = to_vertex(heh)`; if unvisited, append it to `next_front`,
record it in `bfs_vertex_list`, extend `bfs_laplacian_coef_addr` by
`valence + 1`, and record the transition halfedge; finally mark it
visited.
-/
def bfsPush (m : Mesh) (st : BfsState) (h : Nat) : BfsState :=
  let w := m.toV h
  let st1 :=
    if st.visited.getD w true then st
    else
      { st with
        order := st.order ++ [(w, some h)]
        lapAddr := st.lapAddr ++ [st.lapAddr.getLastD 0 + (m.valence w + 1)]
        nextFront := st.nextFront ++ [w] }
  { st1 with visited := st1.visited.set w true }

/-- Circulate over all outgoing halfedges of a front vertex. -/
def expandVertex (m : Mesh) (st : BfsState) (v : Nat) : BfsState :=
  (m.halfedgesOf v).foldl (bfsPush m) st

/-- One iteration of the BFS while-loop: clear `next_front`, then expand
every vertex of the current front. -/
def expandFront (m : Mesh) (st : BfsState) (front : List Nat) : BfsState :=
  front.foldl (expandVertex m) { st with nextFront := [] }

/-- Count of unvisited flags; the BFS termination measure is
`unvisited + |front|`. -/
def unvisitedCount (l : List Bool) : Nat := l.count false

/--
Fuel-indexed unrolling of the BFS while-loop.  `bfsLoop` below runs it
with provably sufficient fuel, so the fuel-exhausted branch is dead
code (`bfsLoop_eq` recovers the literal loop recurrence).
-/
def bfsLoopAux (m : Mesh) : Nat → BfsState → List Nat → List Nat → BfsState × List Nat
  | 0, st, _, segAddr => (st, segAddr)
  | fuel + 1, st, front, segAddr =>
    if front.isEmpty then (st, segAddr)
    else
      let st' := expandFront m st front
      bfsLoopAux m fuel st' st'.nextFront
        (segAddr ++ [segAddr.getLastD 0 + st'.nextFront.length])

/--
The BFS while-loop (`while (!current_front->empty())`): expand the
current front, append the next segment address
(`previous back + |next_front|`, duplicating the final address on the
last round exactly as the reference does), and continue with the new
front.  Returns the final state and `bfs_segment_addr`.
-/
def bfsLoop (m : Mesh) (st : BfsState) (front : List Nat) (segAddr : List Nat) :
    BfsState × List Nat :=
  bfsLoopAux m (unvisitedCount st.visited + front.length) st front segAddr

/--
Source initialization of `init_bfs_paths`: mark each source visited,
record it in `bfs_vertex_list`, and extend `bfs_laplacian_coef_addr`
by its valence plus one.
-/
def bfsInitStep (m : Mesh) (st : BfsState) (v : Nat) : BfsState :=
  { st with
    visited := st.visited.set v true
    order := st.order ++ [(v, none)]
    lapAddr := st.lapAddr ++ [st.lapAddr.getLastD 0 + (m.valence v + 1)] }

def bfsInit (m : Mesh) (sources : List Nat) : BfsState :=
  sources.foldl (bfsInitStep m)
    { visited := List.replicate m.nv false, order := [], lapAddr := [0], nextFront := [] }

/-- `init_bfs_paths`: sources form layer 0 (segment addresses start as
`[0, n_sources]`), then the BFS while-loop runs. -/
def init_bfs_paths (m : Mesh) (sources : List Nat) : BfsState × List Nat :=
  bfsLoop m (bfsInit m sources) sources [0, sources.length]

/-- `bfs_vertex_list` produced by `init_bfs_paths`. -/
def bfs_vertex_list (m : Mesh) (sources : List Nat) : List Nat :=
  ((init_bfs_paths m sources).1.order).map Prod.fst

/-- `transition_halfedge_idx` produced by `init_bfs_paths`
(`none` encodes the untouched `-1` of a source position). -/
def transition_halfedge_idx (m : Mesh) (sources : List Nat) : List (Option Nat) :=
  ((init_bfs_paths m sources).1.order).map Prod.snd

/-- `bfs_laplacian_coef_addr` produced by `init_bfs_paths`. -/
def bfs_laplacian_coef_addr (m : Mesh) (sources : List Nat) : List Nat :=
  (init_bfs_paths m sources).1.lapAddr

/-- `bfs_segment_addr` produced by `init_bfs_paths`. -/
def bfs_segment_addr (m : Mesh) (sources : List Nat) : List Nat :=
  (init_bfs_paths m sources).2

/-- Reachability from the source set along outgoing halfedges — the
connectivity notion traversed by the BFS. -/
inductive Reach (m : Mesh) (sources : List Nat) : Nat → Prop
  | source {v : Nat} : v ∈ sources → Reach m sources v
  | step {u v : Nat} (hu : Reach m sources u) (h : Nat)
      (hh : h ∈ m.halfedgesOf u) (hv : m.toV h = v) : Reach m sources v

/--
Invariants of the BFS state that do not mention the current front:
`visited` has one flag per vertex and holds exactly the vertices
recorded in `order`; recorded vertices are in range and pairwise
distinct; the sources sit at the head of `order` in input order;
`next_front` only holds recorded vertices; every non-source entry's
transition halfedge points at it from an earlier recorded vertex; and
`bfs_laplacian_coef_addr` grows by `valence + 1` per recorded vertex.
-/
structure BfsCore (m : Mesh) (sources : List Nat) (st : BfsState) : Prop where
  vlen : st.visited.length = m.nv
  ordLT : ∀ p ∈ st.order, p.1 < m.nv
  viff : ∀ v < m.nv, (st.visited.getD v true = true ↔ v ∈ st.order.map Prod.fst)
  nodup : (st.order.map Prod.fst).Nodup
  srcpre : ∃ rest, st.order = (sources.map fun v => (v, none)) ++ rest
  nfsub : ∀ v ∈ st.nextFront, v ∈ st.order.map Prod.fst
  parent : ∀ (i v h : Nat), st.order[i]? = some (v, some h) →
    m.toV h = v ∧ ∃ j < i, ∃ p : Nat × Option Nat,
      st.order[j]? = some p ∧ p.1 = m.fromV h
  parent_some : ∀ i, sources.length ≤ i → i < st.order.length →
    ((st.order.getD i ((0 : Nat), (none : Option Nat))).2).isSome = true
  laplen : st.lapAddr.length = st.order.length + 1
  lapdiff : ∀ i < st.order.length, st.lapAddr.getD (i+1) 0 =
    st.lapAddr.getD i 0 + (m.valence ((st.order.getD i (0, none)).1) + 1)

/--
Invariant at the head of each BFS while-loop iteration: the core state
invariant, plus: front vertices are recorded, and every recorded vertex
is either still in the front or already fully expanded (all its
halfedge targets visited).
-/
structure BfsLoopInv (m : Mesh) (sources : List Nat) (st : BfsState)
    (front : List Nat) extends BfsCore m sources st : Prop where
  fsub : ∀ v ∈ front, v ∈ st.order.map Prod.fst
  closed : ∀ v ∈ st.order.map Prod.fst, v ∈ front ∨
    ∀ h ∈ m.halfedgesOf v, st.visited.getD (m.toV h) true = true

/--
Invariant in the middle of `expandFront`: the core state invariant,
plus: every recorded vertex is either in the part of the front still
to be expanded, or in the `next_front` built so far, or already fully
expanded.
-/
structure ExpandInv (m : Mesh) (sources : List Nat) (st : BfsState)
    (todo : List Nat) extends BfsCore m sources st : Prop where
  tsub : ∀ v ∈ todo, v ∈ st.order.map Prod.fst
  closedMid : ∀ v ∈ st.order.map Prod.fst, v ∈ todo ∨ v ∈ st.nextFront ∨
    ∀ h ∈ m.halfedgesOf v, st.visited.getD (m.toV h) true = true

/--
Return value of `solve`: `load_input` is the only stage that can
signal failure (`solve` returns `false` exactly when `load_input`
does; every later stage is `void` and `solve` then returns `true`).
-/
def solve_succeeds (m : Mesh) (source_vertices : List Int) : Bool :=
  load_input m source_vertices

/-- `total_source_area` of `gauss_seidel_init_gradients`: the summed
vertex area over the source list. -/
def total_source_area (vertex_area : Nat → ℚ) (sources : List Nat) : ℚ :=
  (sources.map vertex_area).sum

/--
Square of `init_source_val` from `gauss_seidel_init_gradients`:
`init_source_val = sqrt(min(n_v / n_sources, Σ vertex_area / total_source_area))`.
The square root is irrelevant to the claims about this quantity, so the
radicand is modelled.
-/
def init_source_val_sq (vertex_area : Nat → ℚ) (nv : Nat) (sources : List Nat) : ℚ :=
  min ((nv : ℚ) / (sources.length : ℚ))
    (((List.range nv).map vertex_area).sum / total_source_area vertex_area sources)

/--
Per-position transition data of `prepare_integrate_geodesic_distance`,
computed from the stored transition halfedge: `transition_from_vtx =
from_vertex(heh)`; the signed edge reference is `-e - 1` when `heh` is
the edge's halfedge 0 and `e` otherwise.  A source position (invalid
halfedge) keeps the initial `(-1, -1)`.
-/
def transition_tables (m : Mesh) (t : Option Nat) : Int × Int :=
  match t with
  | none => (-1, -1)
  | some heh =>
    if m.he0 (m.edgeOf heh) = heh then
      ((m.fromV heh : Int), -(m.edgeOf heh : Int) - 1)
    else
      ((m.fromV heh : Int), (m.edgeOf heh : Int))

/-- `transition_from_vtx` array of `prepare_integrate_geodesic_distance`. -/
def transition_from_vtx (m : Mesh) (sources : List Nat) : List Int :=
  (transition_halfedge_idx m sources).map (fun t => (transition_tables m t).1)

/-- `transition_edge_idx` array of `prepare_integrate_geodesic_distance`. -/
def transition_edge_idx (m : Mesh) (sources : List Nat) : List Int :=
  (transition_halfedge_idx m sources).map (fun t => (transition_tables m t).2)

/--
Body of the distance-recovery loop of `integrate_geodesic_distance` at
BFS position `i`: read `from_d = dist[transition_from_vtx[i]]` and set
`dist[bfs_vertex_list[i]]` to `from_d + X[e]` when the stored edge index
`e` is `≥ 0`, and to `from_d - X[-(e+1)]` otherwise.
-/
def integrateAt (X : List ℚ) (orderV : List Nat) (tFrom tEdge : List Int)
    (dist : List ℚ) (i : Nat) : List ℚ :=
  let from_d := dist.getD (tFrom.getD i (-1)).toNat 0
  let edge_index := tEdge.getD i (-1)
  if 0 ≤ edge_index then
    dist.set (orderV.getD i 0) (from_d + X.getD edge_index.toNat 0)
  else
    dist.set (orderV.getD i 0) (from_d - X.getD (-(edge_index + 1)).toNat 0)

/-- One segment `[lo, hi)` of the distance-recovery loop. -/
def integrateSegment (X : List ℚ) (orderV : List Nat) (tFrom tEdge : List Int)
    (dist : List ℚ) (lo hi : Nat) : List ℚ :=
  (List.range' lo (hi - lo)).foldl (integrateAt X orderV tFrom tEdge) dist

/--
The while-loop of `integrate_geodesic_distance`, starting from the
second BFS layer (`segment_count = 1`) and stopping once
`segment_count ≥ n_segments` (with `n_segments = |bfs_segment_addr| - 1`).
The fuel argument only bounds the iteration count; it is provably never
exhausted with the fuel supplied by `integrate_unscaled`.
-/
def integrateLoopAux (X : List ℚ) (orderV : List Nat) (tFrom tEdge : List Int)
    (segAddr : List Nat) : Nat → Nat → List ℚ → List ℚ
  | 0, _, dist => dist
  | fuel + 1, c, dist =>
    let dist' := integrateSegment X orderV tFrom tEdge dist
      (segAddr.getD c 0) (segAddr.getD (c+1) 0)
    if segAddr.length - 1 ≤ c + 1 then dist'
    else integrateLoopAux X orderV tFrom tEdge segAddr fuel (c+1) dist'

/-- `integrate_geodesic_distance` before the final rescaling: distances
initialized to zero, then the propagation loop over BFS layers `1..`. -/
def integrate_unscaled (m : Mesh) (sources : List Nat) (X : List ℚ) : List ℚ :=
  integrateLoopAux X (bfs_vertex_list m sources) (transition_from_vtx m sources)
    (transition_edge_idx m sources) (bfs_segment_addr m sources)
    (bfs_segment_addr m sources).length 1 (List.replicate m.nv 0)

/-- `integrate_geodesic_distance`: tree integration of the per-edge
differences `X`, then rescaling by `model_scaling_factor`. -/
def integrate_geodesic_distance (m : Mesh) (sources : List Nat) (X : List ℚ)
    (model_scaling_factor : ℚ) : List ℚ :=
  (integrate_unscaled m sources X).map (fun d => d * model_scaling_factor)

/-! ### Concrete meshes used as witnesses and counterexamples -/

/-- A single triangle `0-1-2` with the standard half-edge layout:
edge `e` owns halfedges `2e` (halfedge 0) and `2e+1`; edge 0 joins
vertices 0,1; edge 1 joins 1,2; edge 2 joins 2,0; the unique face is
bounded by halfedges `[0, 2, 4]`. -/
def triMesh : Mesh where
  nv := 3
  ne := 3
  nf := 1
  pos := fun v => [(⟨0,0,0⟩ : V3), ⟨1,0,0⟩, ⟨0,1,0⟩].getD v ⟨0,0,0⟩
  halfedgesOf := fun v => [[0,5],[2,1],[4,3]].getD v []
  facesOf := fun v => [[0],[0],[0]].getD v []
  faceH := fun f => [[0,2,4]].getD f []
  toV := fun h => [1,0,2,1,0,2].getD h 0
  fromV := fun h => [0,1,1,2,2,0].getD h 0
  edgeOf := fun h => h / 2
  he0 := fun e => 2 * e
  opp := fun h => if h % 2 = 0 then h + 1 else h - 1

/-- Two disjoint triangles (`0-1-2` and `3-4-5`): a disconnected mesh
with nonzero vertex, edge and face counts. -/
def twoTriMesh : Mesh where
  nv := 6
  ne := 6
  nf := 2
  pos := fun v =>
    [(⟨0,0,0⟩ : V3), ⟨1,0,0⟩, ⟨0,1,0⟩, ⟨5,0,0⟩, ⟨6,0,0⟩, ⟨5,1,0⟩].getD v ⟨0,0,0⟩
  halfedgesOf := fun v => [[0,5],[2,1],[4,3],[6,11],[8,7],[10,9]].getD v []
  facesOf := fun v => [[0],[0],[0],[1],[1],[1]].getD v []
  faceH := fun f => [[0,2,4],[6,8,10]].getD f []
  toV := fun h => [1,0,2,1,0,2,4,3,5,4,3,5].getD h 0
  fromV := fun h => [0,1,1,2,2,0,3,4,4,5,5,3].getD h 0
  edgeOf := fun h => h / 2
  he0 := fun e => 2 * e
  opp := fun h => if h % 2 = 0 then h + 1 else h - 1

/-! ### `update_Y`: ADMM integrability projection -/

/--
Body of `update_Y` for face `i`:
`y = prev_SX.segment(3i, 3) - D.segment(3i, 3)`, `q = Q.col(i)`,
`Y.segment(3i, 3) = y - 1/3 (q·y) q`.
-/
def update_Y_face (Q : List Int) (prevSX D Y : List ℚ) (i : Nat) : List ℚ :=
  let y0 := prevSX.getD (3*i) 0 - D.getD (3*i) 0
  let y1 := prevSX.getD (3*i+1) 0 - D.getD (3*i+1) 0
  let y2 := prevSX.getD (3*i+2) 0 - D.getD (3*i+2) 0
  let q0 : ℚ := (Q.getD (3*i) 0 : Int)
  let q1 : ℚ := (Q.getD (3*i+1) 0 : Int)
  let q2 : ℚ := (Q.getD (3*i+2) 0 : Int)
  let qy := q0 * y0 + q1 * y1 + q2 * y2
  ((Y.set (3*i) (y0 - 1/3 * qy * q0)).set (3*i+1) (y1 - 1/3 * qy * q1)).set (3*i+2)
    (y2 - 1/3 * qy * q2)

/-- `update_Y`: the per-face loop of the ADMM Y-update. -/
def update_Y (nf : Nat) (Q : List Int) (prevSX D Y : List ℚ) : List ℚ :=
  (List.range nf).foldl (update_Y_face Q prevSX D) Y

/-- The face-corner differences `y = prev_SX - D` read by `update_Y`. -/
def faceY (prevSX D : List ℚ) (i k : Nat) : ℚ :=
  prevSX.getD (3*i+k) 0 - D.getD (3*i+k) 0

/-- The face-corner signs `q = Q.col(i)` read by `update_Y` (cast to the
scalar field, as `Q.col(i).cast<double>()` does). -/
def faceQ (Q : List Int) (i k : Nat) : ℚ :=
  (Q.getD (3*i+k) 0 : Int)

/-- The signed sum `q · y` over face `i`. -/
def faceQY (Q : List Int) (prevSX D : List ℚ) (i : Nat) : ℚ :=
  faceQ Q i 0 * faceY prevSX D i 0 + faceQ Q i 1 * faceY prevSX D i 1 +
    faceQ Q i 2 * faceY prevSX D i 2

/-! ### `prepare_integrate_geodesic_distance`: edge↔face registration,
and `update_X` -/

/-- `edges_Y_index` (rows 0 and 1) together with the `num_rows` fill
counters of `prepare_integrate_geodesic_distance`. -/
structure EdgesYState where
  eyi0 : List Int
  eyi1 : List Int
  numRows : List Nat

/--
Registration of one face corner `(i, k)` carrying halfedge `h`:
`edges_Y_index(num_rows(edge)++, edge) = 3i + k`.  (A third meeting of
the same edge would write row 2 of a 2-row matrix — out of bounds in
C++, a no-op here; it never happens on a manifold mesh.)
-/
def registerCorner (m : Mesh) (st : EdgesYState) (i k h : Nat) : EdgesYState :=
  let e := m.edgeOf h
  let r := st.numRows.getD e 0
  { eyi0 := if r = 0 then st.eyi0.set e ((3*i+k : Nat) : Int) else st.eyi0
    eyi1 := if r = 1 then st.eyi1.set e ((3*i+k : Nat) : Int) else st.eyi1
    numRows := st.numRows.set e (r + 1) }

/-- Register the three corners of face `i` (the `k` counter follows the
face halfedge circulator). -/
def register_face (m : Mesh) (st : EdgesYState) (i : Nat) : EdgesYState :=
  ((m.faceH i).enum).foldl (fun s kh => registerCorner m s i kh.1 kh.2) st

/-- `edges_Y_index` after the per-face registration pass (all rows
initialized to `-1`, counters to `0`). -/
def edges_Y_index (m : Mesh) : EdgesYState :=
  (List.range m.nf).foldl (register_face m)
    ⟨List.replicate m.ne (-1), List.replicate m.ne (-1), List.replicate m.ne 0⟩

/--
`update_X` body for edge `e`: over the two rows of `edges_Y_index`,
accumulate `r += ρ(Y[idx] + D[idx]) + Z[idx]` and `n_aux_var++` for
each valid (`≥ 0`) row, then `X(e) = r / ((ρ + 1) n_aux_var)`.
-/
def update_X_edge (penalty : ℚ) (Y D Z : List ℚ) (st : EdgesYState) (e : Nat) : ℚ :=
  let acc := [st.eyi0.getD e (-1), st.eyi1.getD e (-1)].foldl
    (fun rn idx =>
      if 0 ≤ idx then
        (rn.1 + (penalty * (Y.getD idx.toNat 0 + D.getD idx.toNat 0) +
          Z.getD idx.toNat 0), rn.2 + 1)
      else rn)
    ((0 : ℚ), (0 : Nat))
  acc.1 / ((penalty + 1) * (acc.2 : ℚ))

/-- `update_X`: the per-edge loop of the ADMM X-update. -/
def update_X (m : Mesh) (penalty : ℚ) (Y D Z : List ℚ) (st : EdgesYState) : List ℚ :=
  (List.range m.ne).map (update_X_edge penalty Y D Z st)

/-- Invariant of the registration pass: row lengths are `n_e`, and an
edge whose counter is positive has a valid row-0 entry. -/
structure EYInv (m : Mesh) (st : EdgesYState) : Prop where
  len0 : st.eyi0.length = m.ne
  lenR : st.numRows.length = m.ne
  filled : ∀ e < m.ne, 1 ≤ st.numRows.getD e 0 → 0 ≤ st.eyi0.getD e (-1)

/-- Row 0 of `edges_Y_index` for edge `e` after preprocessing. -/
def slot0 (m : Mesh) (e : Nat) : Int := (edges_Y_index m).eyi0.getD e (-1)

/-- Row 1 of `edges_Y_index` for edge `e` after preprocessing. -/
def slot1 (m : Mesh) (e : Nat) : Int := (edges_Y_index m).eyi1.getD e (-1)

/-- The number `n` of valid (non `-1`) rows of `edges_Y_index` for edge
`e`. -/
def validSlotCount (m : Mesh) (e : Nat) : Nat :=
  (if 0 ≤ slot0 m e then 1 else 0) + (if 0 ≤ slot1 m e then 1 else 0)

/-- Contribution of one `edges_Y_index` row to the X-update numerator:
`ρ(Y[idx] + D[idx]) + Z[idx]` if the row is valid, else nothing. -/
def slotTerm (penalty : ℚ) (Y D Z : List ℚ) (idx : Int) : ℚ :=
  if 0 ≤ idx then
    penalty * (Y.getD idx.toNat 0 + D.getD idx.toNat 0) + Z.getD idx.toNat 0
  else 0

/-- `edge_vector.col(e)` of `gauss_seidel_init_gradients`: the position of
the target of the canonical halfedge `halfedge(e, 0)` minus the position of
its source. -/
def edge_vector (m : Mesh) (e : Nat) : V3 :=
  (m.pos (m.toV (m.he0 e))).sub (m.pos (m.fromV (m.he0 e)))

/-- `edge_sqr_length(e)`: the squared Euclidean length of `edge_vector e`. -/
def edge_sqr_length (m : Mesh) (e : Nat) : ℚ :=
  (edge_vector m e).sqnorm

/-- Heat-flow step size of `gauss_seidel_init_gradients`:
`h = edge_sqr_length.array().sqrt().mean(); step_length = h * h`.  The
square root is abstracted as the explicit parameter `sq`. -/
def step_length (m : Mesh) (sq : ℚ → ℚ) : ℚ :=
  let h := ((List.range m.ne).map (fun e => sq (edge_sqr_length m e))).sum / (m.ne : ℚ)
  h * h

/-- `fh_idx(j)` of the face loop: the `j`-th halfedge circulated around
face `f`. -/
def face_halfedge (m : Mesh) (f j : Nat) : Nat :=
  (m.faceH f).getD j 0

/-- `edge_l2(j)` of the face loop: the squared length of the edge under
the `j`-th halfedge of face `f`. -/
def face_edge_l2 (m : Mesh) (f j : Nat) : ℚ :=
  edge_sqr_length m (m.edgeOf (face_halfedge m f j))

/-- `face_area(f)`: half the Euclidean norm of the cross product of the
edge vectors under the face's first two halfedges (`sq` abstracts the
square root inside `.norm()`). -/
def face_area (m : Mesh) (sq : ℚ → ℚ) (f : Nat) : ℚ :=
  sq (((edge_vector m (m.edgeOf (face_halfedge m f 0))).cross
    (edge_vector m (m.edgeOf (face_halfedge m f 1)))).sqnorm) * (1/2)

/-- The half-cotangent value the face loop writes at corner `j` of face
`f`: `0.125 * (edge_l2((j+1)%3) + edge_l2((j+2)%3) - edge_l2(j)) / area`. -/
def face_corner_halfcot (m : Mesh) (sq : ℚ → ℚ) (f j : Nat) : ℚ :=
  (1/8) * (face_edge_l2 m f ((j+1) % 3) + face_edge_l2 m f ((j+2) % 3)
    - face_edge_l2 m f j) / face_area m sq f

/-- `halfedge_halfcot`: the per-halfedge half-cotangent array, filled by
the face loop (`for i < n_faces`, `for j < 3`) over a zero-initialised
vector of `n_halfedges = 2 * n_edges` entries. -/
def halfedge_halfcot (m : Mesh) (sq : ℚ → ℚ) : List ℚ :=
  (List.range m.nf).foldl
    (fun hc f => (List.range 3).foldl
      (fun hc j => hc.set (face_halfedge m f j) (face_corner_halfcot m sq f j)) hc)
    (List.replicate (2 * m.ne) 0)

/-- `vertex_A = A / 3.0` of the vertex loop: one third of the summed
areas of the faces around `v`. -/
def vertex_area (m : Mesh) (sq : ℚ → ℚ) (v : Nat) : ℚ :=
  ((m.facesOf v).map (face_area m sq)).sum / 3

/-- The raw cotangent weight `w` of the vertex loop for the outgoing
halfedge `h`: `halfedge_halfcot(h) + halfedge_halfcot(opposite(h))`. -/
def halfedge_weight (m : Mesh) (sq : ℚ → ℚ) (h : Nat) : ℚ :=
  (halfedge_halfcot m sq).getD h 0 + (halfedge_halfcot m sq).getD (m.opp h) 0

/-- `vtx_idx` of the vertex loop: the circulated neighbor targets
followed by the vertex itself. -/
def lap_vtx_idx (m : Mesh) (v : Nat) : List Nat :=
  (m.halfedgesOf v).map m.toV ++ [v]

/-- `weights` of the vertex loop after its three in-place updates: the
raw cotangent weights with their sum appended (`weights(k) =
weights.head(k).sum()`), everything scaled by `step_length`
(`weights *= step_length`), and `vertex_A` added to the final entry
(`weights(k) += vertex_A`). -/
def lap_weights (m : Mesh) (sq : ℚ → ℚ) (v : Nat) : List ℚ :=
  let ws := (m.halfedgesOf v).map (halfedge_weight m sq)
  let ws2 := (ws ++ [ws.sum]).map (fun w => step_length m sq * w)
  ws2.set ws.length (ws2.getD ws.length 0 + vertex_area m sq v)

/-- The compressed Laplacian row the vertex loop stores for vertex `v`:
the pairs `(vtx_idx(j), weights(j))` for `j` below
`end_addr - start_addr = valence(v) + 1`. -/
def bfs_laplacian_coef_row (m : Mesh) (sq : ℚ → ℚ) (v : Nat) : List (Nat × ℚ) :=
  (lap_vtx_idx m v).zip (lap_weights m sq v)

/-- One Laplacian-coefficient product read by the Gauss-Seidel sweep and
the residual loop: `heat_values(coef.first) * coef.second` for the
`bfs_laplacian_coef` entry at address `j`. -/
def lap_term (lap : List (Nat × ℚ)) (d : List ℚ) (j : Nat) : ℚ :=
  d.getD (lap.getD j (0, 0)).1 0 * (lap.getD j (0, 0)).2

/-- `temp_d(i - segment_begin_addr)` of the Gauss-Seidel sweep: the
accumulated `new_heat_value` over the off-diagonal row entries (plus
`init_source_val` on the source segment `segment_count = 0`), divided by
the diagonal coefficient stored at the row's last address. -/
def gs_new_value (lap : List (Nat × ℚ)) (lapAddr : List Nat) (sc : Nat)
    (isv : ℚ) (d : List ℚ) (i : Nat) : ℚ :=
  let b := lapAddr.getD i 0
  let e := lapAddr.getD (i+1) 0
  let nh := (if sc = 0 then isv else 0) +
    ((List.range' b (e - 1 - b)).map (lap_term lap d)).sum
  nh / (lap.getD (e - 1) (0, 0)).2

/-- One segment of the Gauss-Seidel sweep: `temp_d` is computed for the
whole segment from the incoming heat vector (the two parallel loops are
separated by a barrier), then written back into
`current_d(bfs_vertex_list(i))`. -/
def gs_process_segment (lap : List (Nat × ℚ)) (lapAddr segAddr orderV : List Nat)
    (isv : ℚ) (sc : Nat) (d : List ℚ) : List ℚ :=
  let sb := segAddr.getD sc 0
  let se := segAddr.getD (sc+1) 0
  (List.range' sb (se - sb)).foldl
    (fun dAcc i => dAcc.set (orderV.getD i 0) (gs_new_value lap lapAddr sc isv d i)) d

/-- `compute_heatflow_residual`: per vertex row, `init_source_val` for the
first `|sources|` BFS positions plus the row sum with the diagonal entry
negated. -/
def heat_residual (lap : List (Nat × ℚ)) (lapAddr : List Nat) (nv nsrc : Nat)
    (isv : ℚ) (d : List ℚ) : List ℚ :=
  (List.range nv).map (fun i =>
    let b := lapAddr.getD i 0
    let e := lapAddr.getD (i+1) 0
    (if i < nsrc then isv else 0) +
      ((List.range' b (e - b)).map (fun j =>
        lap_term lap d j * (if j = e - 1 then -1 else 1))).sum)

/-- Squared L2 norm of a residual vector (`residuals.norm()` squared). -/
def resNormSq (r : List ℚ) : ℚ := (r.map (fun x => x * x)).sum

/-- Square of the convergence threshold
`eps = max(1e-16, init_residual_norm * heat_solver_eps)`, expressed on
squared norms (for a non-negative `heat_solver_eps`, `norm <= eps` holds
exactly when `normSq <= epsSq`). -/
def heat_eps_sq (initResSq heatEps : ℚ) : ℚ :=
  max ((1/10^16) * (1/10^16)) (initResSq * (heatEps * heatEps))

/-- The loop-invariant context of the Gauss-Seidel heat loop of
`gauss_seidel_init_gradients`: the assembled Laplacian rows and
addresses, the BFS planning arrays, the solver parameters, and the
squared convergence threshold. -/
structure GsCtx where
  lap : List (Nat × ℚ)
  lapAddr : List Nat
  segAddr : List Nat
  orderV : List Nat
  nv : Nat
  nsrc : Nat
  isv : ℚ
  nSegments : Nat
  maxIter : Int
  freq : Int
  epsSq : ℚ

/-- The mutable state of the Gauss-Seidel while-loop: the heat vector
`current_d`, `segment_count` and `gs_iter`. -/
structure GsState where
  d : List ℚ
  segment_count : Nat
  gs_iter : Nat

/-- The residual convergence test `residual_norm <= eps`, on squares. -/
def gsResOk (ctx : GsCtx) (d : List ℚ) : Bool :=
  if resNormSq (heat_residual ctx.lap ctx.lapAddr ctx.nv ctx.nsrc ctx.isv d) ≤
      ctx.epsSq then true else false

/-- One execution of the body of `while (!end_gs_loop)`: process segment
`segment_count`, advance `segment_count` (incrementing `gs_iter` and
resetting at `n_segments`), then recompute `end_gs_loop`: it is set when
`gs_iter >= heat_solver_max_iter`, and additionally, when the residual is
checked (at loop end, or at a segment reset with `gs_iter` a multiple of
`heat_solver_convergence_check_frequency`), when the residual norm is
within the threshold. -/
def gsBody (ctx : GsCtx) (st : GsState) : GsState × Bool :=
  let d' := gs_process_segment ctx.lap ctx.lapAddr ctx.segAddr ctx.orderV ctx.isv
    st.segment_count st.d
  let sc1 := st.segment_count + 1
  if sc1 = ctx.nSegments then
    let gs' := st.gs_iter + 1
    if ctx.maxIter ≤ (gs' : Int) then (⟨d', 0, gs'⟩, true)
    else if (gs' : Int) % ctx.freq = 0 then (⟨d', 0, gs'⟩, gsResOk ctx d')
    else (⟨d', 0, gs'⟩, false)
  else
    if ctx.maxIter ≤ (st.gs_iter : Int) then (⟨d', sc1, st.gs_iter⟩, true)
    else (⟨d', sc1, st.gs_iter⟩, false)

/-- Fuel-indexed unfolding of `while (!end_gs_loop)` (the flag starts
false, so the body runs before the first test). -/
def gsLoopAux (ctx : GsCtx) : Nat → GsState → GsState
  | 0, st => st
  | fuel+1, st =>
    if (gsBody ctx st).2 then (gsBody ctx st).1
    else gsLoopAux ctx fuel (gsBody ctx st).1

/-- The whole Gauss-Seidel loop from the initial heat vector: at most
`heat_solver_max_iter` outer iterations of `n_segments` segments each. -/
def gauss_seidel_loop (ctx : GsCtx) (d0 : List ℚ) : GsState :=
  gsLoopAux ctx (ctx.maxIter.toNat * ctx.nSegments) ⟨d0, 0, 0⟩

/-- The tail of one outer Gauss-Seidel iteration: the segments from
`sc` up to `n_segments`. -/
def sweepFrom (ctx : GsCtx) (sc : Nat) (d : List ℚ) : List ℚ :=
  (List.range' sc (ctx.nSegments - sc)).foldl
    (fun d s => gs_process_segment ctx.lap ctx.lapAddr ctx.segAddr ctx.orderV
      ctx.isv s d) d

/-- The heat vector after `k` complete outer Gauss-Seidel iterations. -/
def dAfter (ctx : GsCtx) (d0 : List ℚ) : Nat → List ℚ
  | 0 => d0
  | k+1 => sweepFrom ctx 0 (dAfter ctx d0 k)

/-- The early-stop condition at outer-iteration count `k`: `k` is a
multiple of the convergence check frequency and the residual of the heat
vector after `k` outer iterations passes the threshold test. -/
def gsStopsAt (ctx : GsCtx) (d0 : List ℚ) (k : Nat) : Prop :=
  (k : Int) % ctx.freq = 0 ∧ gsResOk ctx (dAfter ctx d0 k) = true

/-- A one-vertex, one-segment Gauss-Seidel fixture: a single unit
diagonal Laplacian row, one source, two allowed outer iterations, a
check every iteration, and the threshold derived from the initial
residual with `heat_solver_eps = 0`. -/
def demoGsCtx : GsCtx where
  lap := [(0, 1)]
  lapAddr := [0, 1]
  segAddr := [0, 1]
  orderV := [0]
  nv := 1
  nsrc := 1
  isv := 1
  nSegments := 1
  maxIter := 2
  freq := 1
  epsSq := heat_eps_sq 1 0

/-! ### Theorems -/

theorem unvisitedCount_set_true (l : List Bool) (i : Nat) :
    unvisitedCount (l.set i true) + (if l.getD i true then 0 else 1) =
      unvisitedCount l := by
  induction l generalizing i with
  | nil => simp [unvisitedCount]
  | cons b t ih =>
    cases i with
    | zero =>
      cases b <;> simp [unvisitedCount, List.count_cons]
    | succ j =>
      have := ih j
      cases b <;>
        simp only [List.set, unvisitedCount, List.count_cons, List.getD,
          List.get?] at * <;> omega

theorem bfsPush_measure (m : Mesh) (st : BfsState) (h : Nat) :
    unvisitedCount (bfsPush m st h).visited + (bfsPush m st h).nextFront.length =
      unvisitedCount st.visited + st.nextFront.length := by
  have hkey := unvisitedCount_set_true st.visited (m.toV h)
  rw [bfsPush]
  by_cases hv : st.visited.getD (m.toV h) true = true
  · rw [if_pos hv] at hkey
    rw [if_pos hv]
    dsimp only
    omega
  · rw [if_neg hv] at hkey
    rw [if_neg hv]
    dsimp only
    rw [List.length_append]
    simp only [List.length_singleton]
    omega

theorem expandVertex_measure (m : Mesh) (st : BfsState) (v : Nat) :
    unvisitedCount (expandVertex m st v).visited +
        (expandVertex m st v).nextFront.length =
      unvisitedCount st.visited + st.nextFront.length := by
  unfold expandVertex
  induction m.halfedgesOf v generalizing st with
  | nil => rfl
  | cons h t ih =>
    simpa [List.foldl_cons, ih (bfsPush m st h)] using bfsPush_measure m st h

theorem expandFront_measure (m : Mesh) (st : BfsState) (front : List Nat) :
    unvisitedCount (expandFront m st front).visited +
        (expandFront m st front).nextFront.length =
      unvisitedCount st.visited := by
  unfold expandFront
  generalize hst : ({ st with nextFront := [] } : BfsState) = st0
  have h0 : unvisitedCount st0.visited + st0.nextFront.length =
      unvisitedCount st.visited := by subst hst; simp
  clear hst
  induction front generalizing st0 with
  | nil => simpa using h0
  | cons v t ih =>
    refine ih (expandVertex m st0 v) ?_
    rw [expandVertex_measure]; exact h0

theorem bfsLoopAux_congr (m : Mesh) (fuel₁ : Nat) :
    ∀ (fuel₂ : Nat) (st : BfsState) (front segAddr : List Nat),
      unvisitedCount st.visited + front.length ≤ fuel₁ →
      unvisitedCount st.visited + front.length ≤ fuel₂ →
      bfsLoopAux m fuel₁ st front segAddr = bfsLoopAux m fuel₂ st front segAddr := by
  induction fuel₁ with
  | zero =>
    intro fuel₂ st front segAddr h1 _
    have hf : front = [] := by
      cases front with
      | nil => rfl
      | cons a t => simp at h1
    subst hf
    cases fuel₂ <;> simp [bfsLoopAux]
  | succ n ih =>
    intro fuel₂ st front segAddr h1 h2
    cases front with
    | nil => cases fuel₂ <;> simp [bfsLoopAux]
    | cons a t =>
      cases fuel₂ with
      | zero => simp at h2
      | succ n₂ =>
        simp only [bfsLoopAux, List.isEmpty_cons, Bool.false_eq_true, if_false]
        have hm := expandFront_measure m st (a :: t)
        have hlen : (a :: t).length = t.length + 1 := by simp
        exact ih n₂ _ _ _ (by omega) (by omega)

/-- The recurrence actually executed by the BFS while-loop. -/
theorem bfsLoop_eq (m : Mesh) (st : BfsState) (front segAddr : List Nat) :
    bfsLoop m st front segAddr =
      if front.isEmpty then (st, segAddr)
      else
        let st' := expandFront m st front
        bfsLoop m st' st'.nextFront
          (segAddr ++ [segAddr.getLastD 0 + st'.nextFront.length]) := by
  cases front with
  | nil =>
    have : ∀ fuel, bfsLoopAux m fuel st [] segAddr = (st, segAddr) := by
      intro fuel; cases fuel <;> simp [bfsLoopAux]
    simp [bfsLoop, this]
  | cons a t =>
    simp only [bfsLoop, List.isEmpty_cons, Bool.false_eq_true, if_false]
    have hm := expandFront_measure m st (a :: t)
    have hlen : (a :: t).length = t.length + 1 := by simp
    rw [show unvisitedCount st.visited + (a :: t).length =
          (unvisitedCount st.visited + t.length) + 1 by omega]
    simp only [bfsLoopAux, List.isEmpty_cons, Bool.false_eq_true, if_false]
    exact bfsLoopAux_congr m _ _ _ _ _ (by omega) (by omega)

/-! ### Generic list-update helper lemmas -/

theorem getD_set_ne {α : Type} (l : List α) (i j : Nat) (v d : α) (h : i ≠ j) :
    (l.set i v).getD j d = l.getD j d := by
  simp [List.getD_eq_getElem?_getD, List.getElem?_set_ne h]

theorem getD_set_self {α : Type} (l : List α) (i : Nat) (v d : α) (h : i < l.length) :
    (l.set i v).getD i d = v := by
  simp [List.getD_eq_getElem?_getD, List.getElem?_set_self, h]

theorem foldl_getD_untouched {α β : Type} (f : List α → β → List α) (L : List β)
    (t : Nat) (d : α) (hf : ∀ Y j, j ∈ L → (f Y j).getD t d = Y.getD t d) :
    ∀ Y : List α, (L.foldl f Y).getD t d = Y.getD t d := by
  induction L with
  | nil => intro Y; rfl
  | cons a l ih =>
    intro Y
    rw [List.foldl_cons, ih (fun Y j hj => hf Y j (List.mem_cons_of_mem a hj)),
      hf Y a (List.mem_cons_self a l)]

theorem foldl_length_invariant {α β : Type} (f : List α → β → List α) (L : List β)
    (hf : ∀ Y j, (f Y j).length = Y.length) :
    ∀ Y : List α, (L.foldl f Y).length = Y.length := by
  induction L with
  | nil => intro Y; rfl
  | cons a l ih => intro Y; rw [List.foldl_cons, ih, hf]

theorem update_Y_face_length (Q : List Int) (prevSX D Y : List ℚ) (i : Nat) :
    (update_Y_face Q prevSX D Y i).length = Y.length := by
  simp [update_Y_face]

theorem update_Y_face_getD_untouched (Q : List Int) (prevSX D Y : List ℚ)
    (i t : Nat) (ht : ∀ k < 3, t ≠ 3*i + k) :
    (update_Y_face Q prevSX D Y i).getD t 0 = Y.getD t 0 := by
  unfold update_Y_face
  rw [getD_set_ne _ _ _ _ _ (fun he => ht 2 (by norm_num) he.symm),
    getD_set_ne _ _ _ _ _ (fun he => ht 1 (by norm_num) he.symm),
    getD_set_ne _ _ _ _ _ (by
      intro he
      exact ht 0 (by norm_num) (by omega))]

theorem update_Y_face_getD_vals (Q : List Int) (prevSX D B : List ℚ) (i : Nat)
    (hlen : 3*i + 2 < B.length) :
    (update_Y_face Q prevSX D B i).getD (3*i) 0 =
        faceY prevSX D i 0 - 1/3 * faceQY Q prevSX D i * faceQ Q i 0 ∧
      (update_Y_face Q prevSX D B i).getD (3*i+1) 0 =
        faceY prevSX D i 1 - 1/3 * faceQY Q prevSX D i * faceQ Q i 1 ∧
      (update_Y_face Q prevSX D B i).getD (3*i+2) 0 =
        faceY prevSX D i 2 - 1/3 * faceQY Q prevSX D i * faceQ Q i 2 := by
  simp only [update_Y_face, faceY, faceQ, faceQY]
  have hl1 : ∀ (l : List ℚ) (a : Nat) (v : ℚ), (l.set a v).length = l.length := by
    simp
  refine ⟨?_, ?_, ?_⟩
  · rw [getD_set_ne _ _ _ _ _ (by omega), getD_set_ne _ _ _ _ _ (by omega),
      getD_set_self _ _ _ _ (by omega)]
    simp only [Nat.add_zero]
  · rw [getD_set_ne _ _ _ _ _ (by omega),
      getD_set_self _ _ _ _ (by rw [hl1]; omega)]
    simp only [Nat.add_zero]
  · rw [getD_set_self _ _ _ _ (by rw [hl1, hl1]; omega)]
    simp only [Nat.add_zero]

theorem update_Y_getD (nf : Nat) (Q : List Int) (prevSX D Y : List ℚ)
    (i : Nat) (hi : i < nf) (hlen : Y.length = 3 * nf) :
    (update_Y nf Q prevSX D Y).getD (3*i) 0 =
        faceY prevSX D i 0 - 1/3 * faceQY Q prevSX D i * faceQ Q i 0 ∧
      (update_Y nf Q prevSX D Y).getD (3*i+1) 0 =
        faceY prevSX D i 1 - 1/3 * faceQY Q prevSX D i * faceQ Q i 1 ∧
      (update_Y nf Q prevSX D Y).getD (3*i+2) 0 =
        faceY prevSX D i 2 - 1/3 * faceQY Q prevSX D i * faceQ Q i 2 := by
  unfold update_Y
  rw [show nf = (i+1) + (nf - (i+1)) by omega, List.range_add, List.foldl_append,
    List.range_succ, List.foldl_append]
  have hmidlen : ((List.range i).foldl (update_Y_face Q prevSX D) Y).length =
      Y.length :=
    foldl_length_invariant _ _ (fun Ya j => update_Y_face_length Q prevSX D Ya j) Y
  have hvals := update_Y_face_getD_vals Q prevSX D
    ((List.range i).foldl (update_Y_face Q prevSX D) Y) i
    (by rw [hmidlen, hlen]; omega)
  have huntouched : ∀ k, k < 3 → ∀ (Ya : List ℚ),
      ((((List.range (nf - (i+1))).map ((i+1) + ·)).foldl
          (update_Y_face Q prevSX D) Ya)).getD (3*i+k) 0 = Ya.getD (3*i+k) 0 := by
    intro k hk Ya
    refine foldl_getD_untouched _ _ _ _ ?_ Ya
    intro Yb j hj
    obtain ⟨x, -, rfl⟩ := List.mem_map.1 hj
    exact update_Y_face_getD_untouched Q prevSX D Yb _ _ (by intro k' hk'; omega)
  simp only [List.foldl_cons, List.foldl_nil]
  refine ⟨?_, ?_, ?_⟩
  · have h0 := huntouched 0 (by norm_num)
    simp only [Nat.add_zero] at h0
    rw [h0]
    exact hvals.1
  · rw [huntouched 1 (by norm_num)]
    exact hvals.2.1
  · rw [huntouched 2 (by norm_num)]
    exact hvals.2.2

/--
**C7**: the ADMM Y-update is the orthogonal projection onto the
curl-free constraint.  For face `f`, with `y = SX_prev[3f..3f+2] -
D[3f..3f+2]` and `q = Q[3f..3f+2]` having entries in `{-1, +1}`, the
update sets `Y[3f..3f+2] = y - ((q·y)/3)·q`, and consequently the
signed sum `q · Y[3f..3f+2]` is zero (exact arithmetic).
-/
theorem C7_Y_update_is_curl_free_projection (nf : Nat) (Q : List Int)
    (prevSX D Y : List ℚ) (i : Nat) (hi : i < nf) (hlen : Y.length = 3 * nf)
    (hq : ∀ k < 3, Q.getD (3*i+k) 0 = 1 ∨ Q.getD (3*i+k) 0 = -1) :
    (∀ k < 3, (update_Y nf Q prevSX D Y).getD (3*i+k) 0 =
        faceY prevSX D i k - faceQY Q prevSX D i / 3 * faceQ Q i k) ∧
      faceQ Q i 0 * (update_Y nf Q prevSX D Y).getD (3*i) 0 +
        faceQ Q i 1 * (update_Y nf Q prevSX D Y).getD (3*i+1) 0 +
        faceQ Q i 2 * (update_Y nf Q prevSX D Y).getD (3*i+2) 0 = 0 := by
  obtain ⟨e0, e1, e2⟩ := update_Y_getD nf Q prevSX D Y i hi hlen
  have hqsq : ∀ k, k < 3 → faceQ Q i k * faceQ Q i k = 1 := by
    intro k hk
    rcases hq k hk with h | h <;> (simp only [faceQ]; rw [h]; norm_num)
  constructor
  · intro k hk
    interval_cases k
    · rw [show 3*i+0 = 3*i by omega, e0]; ring
    · rw [e1]; ring
    · rw [e2]; ring
  · rw [e0, e1, e2]
    have hexp : faceQ Q i 0 * (faceY prevSX D i 0 -
          1/3 * faceQY Q prevSX D i * faceQ Q i 0) +
        faceQ Q i 1 * (faceY prevSX D i 1 -
          1/3 * faceQY Q prevSX D i * faceQ Q i 1) +
        faceQ Q i 2 * (faceY prevSX D i 2 -
          1/3 * faceQY Q prevSX D i * faceQ Q i 2) =
        faceQY Q prevSX D i - 1/3 * faceQY Q prevSX D i *
          (faceQ Q i 0 * faceQ Q i 0 + faceQ Q i 1 * faceQ Q i 1 +
            faceQ Q i 2 * faceQ Q i 2) := by
      rw [faceQY]; ring
    rw [hexp, hqsq 0 (by norm_num), hqsq 1 (by norm_num), hqsq 2 (by norm_num)]
    ring

/-- Closed witness for `C7_Y_update_is_curl_free_projection`:
one face with `Q = [1, 1, -1]`, `SX_prev = [1, 2, 3]`, `D = Y = 0`. -/
theorem C7_witness :
    (0 < 1 ∧ ([(0:ℚ), 0, 0] : List ℚ).length = 3 * 1 ∧
      (∀ k < 3, ([1, 1, -1] : List Int).getD (3*0+k) 0 = 1 ∨
        ([1, 1, -1] : List Int).getD (3*0+k) 0 = -1)) ∧
    ((∀ k < 3, (update_Y 1 [1, 1, -1] [1, 2, 3] [0, 0, 0] [0, 0, 0]).getD (3*0+k) 0 =
        faceY [1, 2, 3] [0, 0, 0] 0 k -
          faceQY [1, 1, -1] [1, 2, 3] [0, 0, 0] 0 / 3 * faceQ [1, 1, -1] 0 k) ∧
      faceQ [1, 1, -1] 0 0 *
          (update_Y 1 [1, 1, -1] [1, 2, 3] [0, 0, 0] [0, 0, 0]).getD (3*0) 0 +
        faceQ [1, 1, -1] 0 1 *
          (update_Y 1 [1, 1, -1] [1, 2, 3] [0, 0, 0] [0, 0, 0]).getD (3*0+1) 0 +
        faceQ [1, 1, -1] 0 2 *
          (update_Y 1 [1, 1, -1] [1, 2, 3] [0, 0, 0] [0, 0, 0]).getD (3*0+2) 0 = 0) :=
  ⟨⟨by norm_num, by norm_num, by decide⟩,
    C7_Y_update_is_curl_free_projection 1 [1, 1, -1] [1, 2, 3] [0, 0, 0] [0, 0, 0] 0
      (by norm_num) (by norm_num) (by decide)⟩

theorem registerCorner_inv (m : Mesh) (st : EdgesYState) (i k h : Nat)
    (hinv : EYInv m st) : EYInv m (registerCorner m st i k h) := by
  obtain ⟨len0, lenR, filled⟩ := hinv
  refine ⟨?_, ?_, ?_⟩
  · simp only [registerCorner]
    split <;> simp [len0]
  · simp only [registerCorner, List.length_set, lenR]
  · intro e he hcnt
    simp only [registerCorner] at hcnt ⊢
    by_cases hee : m.edgeOf h = e
    · subst hee
      rcases Nat.eq_zero_or_pos (st.numRows.getD (m.edgeOf h) 0) with hr | hr
      · rw [if_pos hr]
        rw [getD_set_self _ _ _ _ (by rw [len0]; exact he)]
        positivity
      · rw [if_neg (by omega)]
        exact filled _ he hr
    · rw [getD_set_ne _ _ _ _ _ hee] at hcnt
      split
      · rw [getD_set_ne _ _ _ _ _ hee]
        exact filled e he hcnt
      · exact filled e he hcnt

/-- Per-entry monotonicity of the fill counters. -/
theorem registerCorner_numRows_mono (m : Mesh) (st : EdgesYState) (i k h e : Nat) :
    st.numRows.getD e 0 ≤ (registerCorner m st i k h).numRows.getD e 0 := by
  simp only [registerCorner]
  by_cases hee : m.edgeOf h = e
  · subst hee
    by_cases hlt : m.edgeOf h < st.numRows.length
    · rw [getD_set_self _ _ _ _ hlt]; omega
    · rw [List.set_eq_of_length_le (by omega)]
  · rw [getD_set_ne _ _ _ _ _ hee]

theorem foldl_numRows_mono {β : Type} (e : Nat) (step : EdgesYState → β → EdgesYState)
    (hstep : ∀ s b, s.numRows.getD e 0 ≤ (step s b).numRows.getD e 0) (L : List β) :
    ∀ st, st.numRows.getD e 0 ≤ (L.foldl step st).numRows.getD e 0 := by
  induction L with
  | nil => intro st; exact Nat.le_refl _
  | cons a l ih =>
    intro st
    exact Nat.le_trans (hstep st a) (ih (step st a))

theorem foldl_lenR_invariant {β : Type} (step : EdgesYState → β → EdgesYState)
    (hstep : ∀ s b, (step s b).numRows.length = s.numRows.length) (L : List β) :
    ∀ st, (L.foldl step st).numRows.length = st.numRows.length := by
  induction L with
  | nil => intro st; rfl
  | cons a l ih => intro st; rw [List.foldl_cons, ih, hstep]

theorem register_face_inv (m : Mesh) (i : Nat) (st : EdgesYState)
    (hinv : EYInv m st) : EYInv m (register_face m st i) := by
  unfold register_face
  induction (m.faceH i).enum generalizing st with
  | nil => exact hinv
  | cons a l ih => exact ih _ (registerCorner_inv m st i a.1 a.2 hinv)

theorem edges_Y_index_inv (m : Mesh) : EYInv m (edges_Y_index m) := by
  unfold edges_Y_index
  generalize hinit : (⟨List.replicate m.ne (-1), List.replicate m.ne (-1),
    List.replicate m.ne 0⟩ : EdgesYState) = st0
  have h0 : EYInv m st0 := by
    subst hinit
    refine ⟨by simp, by simp, ?_⟩
    intro e he hcnt
    rw [List.getD_eq_getElem?_getD, List.getElem?_replicate, if_pos he] at hcnt
    simp at hcnt
  clear hinit
  induction List.range m.nf generalizing st0 with
  | nil => exact h0
  | cons a l ih => exact ih _ (register_face_inv m a st0 h0)

theorem registerCorner_numRows_pos (m : Mesh) (st : EdgesYState) (i k h : Nat)
    (hlt : m.edgeOf h < st.numRows.length) :
    1 ≤ (registerCorner m st i k h).numRows.getD (m.edgeOf h) 0 := by
  simp only [registerCorner]
  rw [getD_set_self _ _ _ _ hlt]
  omega

theorem register_face_lenR (m : Mesh) (st : EdgesYState) (i : Nat) :
    (register_face m st i).numRows.length = st.numRows.length := by
  unfold register_face
  exact foldl_lenR_invariant _ (fun s' b' => by simp [registerCorner]) _ st

theorem register_face_numRows_mono (m : Mesh) (i e : Nat) (st : EdgesYState) :
    st.numRows.getD e 0 ≤ (register_face m st i).numRows.getD e 0 := by
  unfold register_face
  refine foldl_numRows_mono e _ ?_ _ st
  intro s' b'
  exact registerCorner_numRows_mono m s' i b'.1 b'.2 e

theorem register_face_numRows_pos (m : Mesh) (i : Nat) (e : Nat)
    (st : EdgesYState) (hlen : st.numRows.length = m.ne) (he : e < m.ne)
    (hcov : ∃ h ∈ m.faceH i, m.edgeOf h = e) :
    1 ≤ (register_face m st i).numRows.getD e 0 := by
  obtain ⟨h, hh, rfl⟩ := hcov
  have hh' : h ∈ ((m.faceH i).enum).map Prod.snd := by
    rw [List.enum_map_snd]; exact hh
  obtain ⟨kh, hkh, rfl⟩ := List.mem_map.1 hh'
  unfold register_face
  clear hh hh'
  generalize hL : (m.faceH i).enum = L at hkh ⊢
  clear hL
  induction L generalizing st with
  | nil => simp at hkh
  | cons a l ih =>
    rw [List.foldl_cons]
    rcases List.mem_cons.1 hkh with rfl | hmem
    · refine Nat.le_trans ?_ (foldl_numRows_mono _ _
        (fun s b => registerCorner_numRows_mono m s i b.1 b.2 _) l _)
      exact registerCorner_numRows_pos m st i kh.1 kh.2 (by rw [hlen]; exact he)
    · exact ih _ (by simp [registerCorner, hlen]) hmem

theorem edges_Y_index_numRows_pos (m : Mesh) (e : Nat) (he : e < m.ne)
    (hcover : ∃ i < m.nf, ∃ h ∈ m.faceH i, m.edgeOf h = e) :
    1 ≤ (edges_Y_index m).numRows.getD e 0 := by
  obtain ⟨i, hi, hcov⟩ := hcover
  unfold edges_Y_index
  rw [show m.nf = (i+1) + (m.nf - (i+1)) by omega, List.range_add,
    List.foldl_append, List.range_succ, List.foldl_append]
  refine Nat.le_trans ?_ (foldl_numRows_mono e (register_face m)
    (fun s b => register_face_numRows_mono m b e s) _ _)
  simp only [List.foldl_cons, List.foldl_nil]
  refine register_face_numRows_pos m i e _ ?_ he hcov
  have hlenR : ∀ (L : List Nat) (st : EdgesYState),
      (L.foldl (register_face m) st).numRows.length = st.numRows.length :=
    fun L => foldl_lenR_invariant (register_face m)
      (fun s b => register_face_lenR m s b) L
  rw [hlenR]
  simp

theorem update_X_getD (m : Mesh) (penalty : ℚ) (Y D Z : List ℚ)
    (st : EdgesYState) (e : Nat) (he : e < m.ne) :
    (update_X m penalty Y D Z st).getD e 0 = update_X_edge penalty Y D Z st e := by
  unfold update_X
  rw [List.getD_eq_getElem?_getD, List.getElem?_map, List.getElem?_range he]
  rfl

/--
**C8**: the ADMM X-update formula and its totality.  For every edge `e`,
with `n ≥ 1` the number of valid (non `-1`) rows of `edges_Y_index` for
`e`, the update sets
`X[e] = (Σ_valid rows (ρ(Y[idx]+D[idx]) + Z[idx])) / ((ρ+1)·n)`; the
count `n` is at least one because every edge of the mesh is registered
in at least one face-corner slot during preprocessing.
-/
theorem C8_X_update_formula (m : Mesh) (penalty : ℚ) (Y D Z : List ℚ) (e : Nat)
    (he : e < m.ne)
    (hcover : ∃ i < m.nf, ∃ h ∈ m.faceH i, m.edgeOf h = e) :
    1 ≤ validSlotCount m e ∧
      (update_X m penalty Y D Z (edges_Y_index m)).getD e 0 =
        (slotTerm penalty Y D Z (slot0 m e) + slotTerm penalty Y D Z (slot1 m e)) /
          ((penalty + 1) * (validSlotCount m e : ℚ)) := by
  have hpos : 0 ≤ slot0 m e :=
    (edges_Y_index_inv m).filled e he (edges_Y_index_numRows_pos m e he hcover)
  have hpos' : 0 ≤ (edges_Y_index m).eyi0.getD e (-1) := hpos
  constructor
  · unfold validSlotCount
    rw [if_pos hpos]
    omega
  · rw [update_X_getD m penalty Y D Z _ e he]
    unfold update_X_edge slotTerm validSlotCount slot0 slot1
    simp only [List.foldl_cons, List.foldl_nil]
    by_cases hq : 0 ≤ (edges_Y_index m).eyi1.getD e (-1)
    · simp only [if_pos hpos', if_pos hq]
      push_cast
      ring
    · simp only [if_pos hpos', if_neg hq]
      push_cast
      ring

/-- Closed witness for `C8_X_update_formula`: edge 0 of the triangle
mesh, `ρ = 1`, `Y = D = 0`, `Z = [1, 2, 3]`. -/
theorem C8_witness :
    (0 < triMesh.ne ∧ ∃ i < triMesh.nf, ∃ h ∈ triMesh.faceH i, triMesh.edgeOf h = 0) ∧
      (1 ≤ validSlotCount triMesh 0 ∧
        (update_X triMesh 1 [0,0,0] [0,0,0] [1,2,3] (edges_Y_index triMesh)).getD 0 0 =
          (slotTerm 1 [0,0,0] [0,0,0] [1,2,3] (slot0 triMesh 0) +
            slotTerm 1 [0,0,0] [0,0,0] [1,2,3] (slot1 triMesh 0)) /
            ((1 + 1) * (validSlotCount triMesh 0 : ℚ))) :=
  ⟨⟨by decide, by decide⟩,
    C8_X_update_formula triMesh 1 [0,0,0] [0,0,0] [1,2,3] 0 (by decide) (by decide)⟩

/-! ### Input validation claims -/

theorem load_input_iff (m : Mesh) (srcs : List Int) :
    load_input m srcs = true ↔
      m.nv ≠ 0 ∧ m.nf ≠ 0 ∧ m.ne ≠ 0 ∧ ∀ s ∈ srcs, 0 ≤ s ∧ s < (m.nv : Int) := by
  unfold load_input
  split
  next h =>
    simp only [Bool.or_eq_true, decide_eq_true_eq] at h
    have hne : ¬(m.nv ≠ 0 ∧ m.nf ≠ 0 ∧ m.ne ≠ 0 ∧
        ∀ s ∈ srcs, 0 ≤ s ∧ s < (m.nv : Int)) := by
      intro hc
      rcases h with (h | h) | h
      · exact hc.1 h
      · exact hc.2.1 h
      · exact hc.2.2.1 h
    simp only [Bool.false_eq_true, false_iff]
    exact hne
  next h =>
    simp only [Bool.or_eq_true, decide_eq_true_eq, not_or] at h
    obtain ⟨⟨h1, h2⟩, h3⟩ := h
    simp only [List.all_eq_true, Bool.not_eq_true', Bool.or_eq_false_iff,
      decide_eq_false_iff_not, not_lt, not_le]
    constructor
    · intro hall
      exact ⟨h1, h2, h3, fun s hs => ⟨(hall s hs).1, (hall s hs).2⟩⟩
    · rintro ⟨-, -, -, hall⟩ s hs
      exact ⟨(hall s hs).1, (hall s hs).2⟩

/--
**C3** (counterexample): the source list `[0, 0]` contains a duplicate
index, yet `load_input` accepts it on the triangle mesh — no duplicate
check exists, contradicting the claim that a duplicate source is
reported as an error.
-/
theorem C3_dup_source_counterexample :
    ¬ ([(0 : Int), 0].Nodup) ∧ load_input triMesh [0, 0] = true := by
  constructor
  · decide
  · decide

/--
**C3** (amended): input validation happens in `load_input` before any
computation, and it checks exactly these conditions: it fails iff the
mesh has a zero vertex, face, or edge count (`EmptyMesh`) or some source
index lies outside `[0, n_v)` (`BadSource`).  There is no duplicate
check: `load_input` succeeds iff the element counts are nonzero and every
source is in range.
-/
theorem C3_load_input_validation (m : Mesh) (srcs : List Int) :
    load_input m srcs = true ↔
      m.nv ≠ 0 ∧ m.nf ≠ 0 ∧ m.ne ≠ 0 ∧ ∀ s ∈ srcs, 0 ≤ s ∧ s < (m.nv : Int) :=
  load_input_iff m srcs

/--
**C10**: `load_input` accepts any source list whose entries lie in
`[0, n_vertices)` on a mesh with nonzero element counts — in particular
the empty list and lists with repeated entries — and with zero sources
the initial source value `α` is computed with the source count `0` and
the total source area `0` as divisors.
-/
theorem C10_no_emptiness_or_distinctness_check (m : Mesh)
    (hv : m.nv ≠ 0) (hf : m.nf ≠ 0) (he : m.ne ≠ 0) :
    load_input m [] = true ∧
      (∀ srcs : List Int, (∀ s ∈ srcs, 0 ≤ s ∧ s < (m.nv : Int)) →
        load_input m srcs = true) ∧
      (∀ s : Int, 0 ≤ s → s < (m.nv : Int) → load_input m [s, s] = true) ∧
      ((([] : List Nat).length : ℚ) = 0 ∧
        (∀ va : Nat → ℚ, total_source_area va [] = 0) ∧
        (∀ va : Nat → ℚ, init_source_val_sq va m.nv [] =
          min ((m.nv : ℚ) / 0) (((List.range m.nv).map va).sum / 0))) := by
  refine ⟨?_, ?_, ?_, rfl, ?_, ?_⟩
  · exact (load_input_iff m []).2 ⟨hv, hf, he, by simp⟩
  · intro srcs hs
    exact (load_input_iff m srcs).2 ⟨hv, hf, he, hs⟩
  · intro s h0 h1
    refine (load_input_iff m [s, s]).2 ⟨hv, hf, he, ?_⟩
    intro x hx
    rcases List.mem_pair.1 hx with rfl | rfl <;> exact ⟨h0, h1⟩
  · intro va; rfl
  · intro va
    unfold init_source_val_sq total_source_area
    norm_num

/-- Closed witness for `C10_no_emptiness_or_distinctness_check` at the
triangle mesh. -/
theorem C10_witness :
    (triMesh.nv ≠ 0 ∧ triMesh.nf ≠ 0 ∧ triMesh.ne ≠ 0) ∧
      load_input triMesh [] = true := by
  refine ⟨⟨by decide, by decide, by decide⟩, ?_⟩
  exact (C10_no_emptiness_or_distinctness_check triMesh (by decide) (by decide)
    (by decide)).1

/--
**C2** (counterexample): on the disconnected two-triangle mesh with
source vertex `0`, the BFS leaves three vertices unreached, yet `solve`
does not fail — no `Disconnected` error exists in the code.
-/
theorem C2_disconnected_counterexample :
    (init_bfs_paths twoTriMesh [0]).1.visited.count false = 3 ∧
      twoTriMesh.nv = 6 ∧
      solve_succeeds twoTriMesh [0] = true := by
  refine ⟨by decide, by decide, by decide⟩

/--
**C2** (amended): the solver performs no connectivity check.  For every
mesh with nonzero element counts and every in-range source list —
connected or not — `solve` succeeds; no `Disconnected` error is ever
surfaced (`load_input` is the only failure point of `solve`).
-/
theorem C2_no_disconnected_error (m : Mesh) (srcs : List Int)
    (hv : m.nv ≠ 0) (hf : m.nf ≠ 0) (he : m.ne ≠ 0)
    (hs : ∀ s ∈ srcs, 0 ≤ s ∧ s < (m.nv : Int)) :
    solve_succeeds m srcs = true :=
  (load_input_iff m srcs).2 ⟨hv, hf, he, hs⟩

/-- Closed witness for `C2_no_disconnected_error` at the disconnected
two-triangle mesh: validation passes there even though the mesh is
disconnected. -/
theorem C2_no_disconnected_error_witness :
    (twoTriMesh.nv ≠ 0 ∧ twoTriMesh.nf ≠ 0 ∧ twoTriMesh.ne ≠ 0) ∧
      solve_succeeds twoTriMesh [0] = true :=
  ⟨⟨by decide, by decide, by decide⟩,
    C2_no_disconnected_error twoTriMesh [0] (by decide) (by decide) (by decide)
      (by decide)⟩

/-! ### BFS planner invariants -/

theorem getD_append_lt {α : Type} (l l' : List α) (i : Nat) (d : α)
    (h : i < l.length) : (l ++ l').getD i d = l.getD i d := by
  simp only [List.getD_eq_getElem?_getD]
  rw [List.getElem?_append, if_pos h]

theorem getD_append_len {α : Type} (l : List α) (x d : α) :
    (l ++ [x]).getD l.length d = x := by
  simp only [List.getD_eq_getElem?_getD]
  rw [List.getElem?_append, if_neg (by omega)]
  simp

theorem getD_last_of_len {α : Type} (l : List α) (n : Nat) (d : α)
    (h : l.length = n + 1) : l.getLastD d = l.getD n d := by
  rw [List.getLastD_eq_getLast?, List.getLast?_eq_getElem?, h]
  simp [List.getD_eq_getElem?_getD]

theorem getElem?_append_lt {α : Type} (l l' : List α) (i : Nat)
    (h : i < l.length) : (l ++ l')[i]? = l[i]? := by
  rw [List.getElem?_append, if_pos h]

theorem getD_set_true_iff (l : List Bool) (w v : Nat) :
    (l.set w true).getD v true = true ↔ v = w ∨ l.getD v true = true := by
  by_cases hvw : v = w
  · subst hvw
    by_cases hlt : v < l.length
    · rw [getD_set_self _ _ _ _ hlt]
      tauto
    · rw [List.set_eq_of_length_le (by omega), List.getD_eq_default _ _ (by omega)]
      tauto
  · rw [getD_set_ne _ _ _ _ _ (fun hh => hvw hh.symm)]
    tauto

theorem bfsPush_visited (m : Mesh) (st : BfsState) (h : Nat) :
    (bfsPush m st h).visited = st.visited.set (m.toV h) true := by
  rw [bfsPush]
  split <;> rfl

theorem bfsPush_of_visited (m : Mesh) (st : BfsState) (h : Nat)
    (hv : st.visited.getD (m.toV h) true = true) :
    (bfsPush m st h).order = st.order ∧
      (bfsPush m st h).lapAddr = st.lapAddr ∧
      (bfsPush m st h).nextFront = st.nextFront := by
  rw [bfsPush, if_pos hv]
  exact ⟨rfl, rfl, rfl⟩

theorem bfsPush_of_unvisited (m : Mesh) (st : BfsState) (h : Nat)
    (hv : ¬ st.visited.getD (m.toV h) true = true) :
    (bfsPush m st h).order = st.order ++ [(m.toV h, some h)] ∧
      (bfsPush m st h).lapAddr =
        st.lapAddr ++ [st.lapAddr.getLastD 0 + (m.valence (m.toV h) + 1)] ∧
      (bfsPush m st h).nextFront = st.nextFront ++ [m.toV h] := by
  rw [bfsPush, if_neg hv]
  exact ⟨rfl, rfl, rfl⟩

/-- `bfsPush` extends `order` and `next_front` by the same vertices. -/
theorem bfsPush_sync (m : Mesh) (st : BfsState) (h : Nat) :
    ∃ d : List Nat,
      (bfsPush m st h).order.map Prod.fst = st.order.map Prod.fst ++ d ∧
      (bfsPush m st h).nextFront = st.nextFront ++ d := by
  by_cases hv : st.visited.getD (m.toV h) true = true
  · obtain ⟨h1, -, h3⟩ := bfsPush_of_visited m st h hv
    exact ⟨[], by simp [h1, h3]⟩
  · obtain ⟨h1, -, h3⟩ := bfsPush_of_unvisited m st h hv
    exact ⟨[m.toV h], by simp [h1, h3]⟩

theorem bfsPush_core (m : Mesh) (sources : List Nat) (st : BfsState)
    (hwf : m.WF) (v0 h : Nat) (hv0 : v0 < m.nv) (hh : h ∈ m.halfedgesOf v0)
    (hv0mem : v0 ∈ st.order.map Prod.fst)
    (hc : BfsCore m sources st) : BfsCore m sources (bfsPush m st h) := by
  obtain ⟨vlen, ordLT, viff, nodup, srcpre, nfsub, parent, psome, laplen, lapdiff⟩ := hc
  have hwlt : m.toV h < m.nv := hwf.toV_lt v0 hv0 h hh
  have hvis := bfsPush_visited m st h
  by_cases hv : st.visited.getD (m.toV h) true = true
  · obtain ⟨h1, h2, h3⟩ := bfsPush_of_visited m st h hv
    refine ⟨by rw [hvis]; simp [vlen], by rw [h1]; exact ordLT, ?_, by rw [h1]; exact nodup,
      by rw [h1]; exact srcpre, by rw [h1, h3]; exact nfsub, by rw [h1]; exact parent,
      by rw [h1]; exact psome,
      by rw [h1, h2]; exact laplen, by rw [h1, h2]; exact lapdiff⟩
    intro v hvlt
    rw [hvis, h1, getD_set_true_iff]
    constructor
    · rintro (rfl | hvv)
      · exact (viff _ hwlt).1 hv
      · exact (viff _ hvlt).1 hvv
    · intro hmem
      exact Or.inr ((viff _ hvlt).2 hmem)
  · obtain ⟨h1, h2, h3⟩ := bfsPush_of_unvisited m st h hv
    have hwnotmem : m.toV h ∉ st.order.map Prod.fst := by
      intro hmem
      exact hv ((viff _ hwlt).2 hmem)
    have hmapapp : (bfsPush m st h).order.map Prod.fst =
        st.order.map Prod.fst ++ [m.toV h] := by rw [h1]; simp
    refine ⟨by rw [hvis]; simp [vlen], ?_, ?_, ?_, ?_, ?_, ?_, ?_, ?_, ?_⟩
    · rw [h1]
      intro p hp
      rcases List.mem_append.1 hp with hp | hp
      · exact ordLT p hp
      · simp at hp
        rw [hp]
        exact hwlt
    · intro v hvlt
      rw [hvis, hmapapp, getD_set_true_iff, List.mem_append]
      constructor
      · rintro (rfl | hvv)
        · exact Or.inr (by simp)
        · exact Or.inl ((viff _ hvlt).1 hvv)
      · rintro (hmem | hmem)
        · exact Or.inr ((viff _ hvlt).2 hmem)
        · simp at hmem
          exact Or.inl hmem
    · rw [hmapapp]
      simp [List.nodup_append, nodup, hwnotmem]
    · obtain ⟨rest, hrest⟩ := srcpre
      exact ⟨rest ++ [(m.toV h, some h)], by rw [h1, hrest, List.append_assoc]⟩
    · rw [h3, hmapapp]
      intro v hvmem
      rcases List.mem_append.1 hvmem with hvv | hvv
      · exact List.mem_append.2 (Or.inl (nfsub v hvv))
      · exact List.mem_append.2 (Or.inr hvv)
    · rw [h1]
      intro i v h' hget
      by_cases hilt : i < st.order.length
      · rw [getElem?_append_lt _ _ _ hilt] at hget
        obtain ⟨hto, j, hj, p, hp, hfst⟩ := parent i v h' hget
        exact ⟨hto, j, hj, p, by rw [getElem?_append_lt _ _ _ (by omega)]; exact hp, hfst⟩
      · have hieq : i = st.order.length := by
          by_contra hne
          rw [List.getElem?_append_right (by omega)] at hget
          have : i - st.order.length ≠ 0 := by omega
          rcases Nat.exists_eq_succ_of_ne_zero this with ⟨k, hk⟩
          rw [hk] at hget
          simp at hget
        subst hieq
        rw [List.getElem?_append_right (le_refl _), Nat.sub_self] at hget
        simp at hget
        obtain ⟨hw, hh'⟩ := hget
        subst hh'
        refine ⟨hw, ?_⟩
        obtain ⟨j, hj, hgj⟩ : ∃ j, j < st.order.length ∧
            (st.order.map Prod.fst)[j]? = some v0 := by
          obtain ⟨j, hj, hjv⟩ := List.mem_iff_getElem.1 hv0mem
          exact ⟨j, by simpa using hj, by
            rw [List.getElem?_eq_getElem hj, hjv]⟩
        refine ⟨j, hj, ?_⟩
        rw [List.getElem?_map] at hgj
        rcases hob : st.order[j]? with - | p
        · rw [hob] at hgj; simp at hgj
        · rw [hob] at hgj
          simp at hgj
          refine ⟨p, ?_, by rw [hgj, hwf.fromV_eq v0 hv0 h hh]⟩
          rw [getElem?_append_lt _ _ _ hj]
          exact hob
    · rw [h1]
      intro i hge hlt
      rw [List.length_append, List.length_singleton] at hlt
      by_cases hilt : i < st.order.length
      · rw [getD_append_lt _ _ _ _ hilt]
        exact psome i hge hilt
      · have hieq : i = st.order.length := by omega
        subst hieq
        rw [getD_append_len]
        rfl
    · rw [h1, h2]
      simp [laplen]
    · rw [h1, h2]
      intro i hi
      rw [List.length_append, List.length_singleton] at hi
      by_cases hilt : i < st.order.length
      · rw [getD_append_lt _ _ _ _ (by omega), getD_append_lt _ _ _ _ (by omega),
          getD_append_lt _ _ _ _ hilt]
        exact lapdiff i hilt
      · have hieq : i = st.order.length := by omega
        subst hieq
        rw [show st.order.length + 1 = st.lapAddr.length by omega, getD_append_len,
          getD_append_lt _ _ _ _ (by omega), getD_append_len,
          getD_last_of_len st.lapAddr st.order.length 0 laplen]

theorem bfsPush_visited_mono (m : Mesh) (st : BfsState) (h v : Nat)
    (hv : st.visited.getD v true = true) :
    (bfsPush m st h).visited.getD v true = true := by
  rw [bfsPush_visited, getD_set_true_iff]
  exact Or.inr hv

theorem foldl_bfsPush_visited_mono (m : Mesh) (hs : List Nat) :
    ∀ (st : BfsState) (v : Nat), st.visited.getD v true = true →
      (hs.foldl (bfsPush m) st).visited.getD v true = true := by
  induction hs with
  | nil => intro st v hv; exact hv
  | cons a t ih =>
    intro st v hv
    exact ih (bfsPush m st a) v (bfsPush_visited_mono m st a v hv)

theorem expandVertex_visited_mono (m : Mesh) (st : BfsState) (v0 v : Nat)
    (hv : st.visited.getD v true = true) :
    (expandVertex m st v0).visited.getD v true = true :=
  foldl_bfsPush_visited_mono m (m.halfedgesOf v0) st v hv

theorem expandVertex_visits (m : Mesh) (st : BfsState) (v0 : Nat) :
    ∀ h ∈ m.halfedgesOf v0,
      (expandVertex m st v0).visited.getD (m.toV h) true = true := by
  unfold expandVertex
  generalize (m.halfedgesOf v0) = hs
  induction hs generalizing st with
  | nil => intro h hh; simp at hh
  | cons a t ih =>
    intro h hh
    rcases List.mem_cons.1 hh with rfl | hmem
    · rw [List.foldl_cons]
      refine foldl_bfsPush_visited_mono m t (bfsPush m st h) (m.toV h) ?_
      rw [bfsPush_visited, getD_set_true_iff]
      exact Or.inl rfl
    · exact ih (bfsPush m st a) h hmem

theorem foldl_bfsPush_sync (m : Mesh) (hs : List Nat) :
    ∀ st : BfsState, ∃ d : List Nat,
      (hs.foldl (bfsPush m) st).order.map Prod.fst = st.order.map Prod.fst ++ d ∧
      (hs.foldl (bfsPush m) st).nextFront = st.nextFront ++ d := by
  induction hs with
  | nil => intro st; exact ⟨[], by simp⟩
  | cons a t ih =>
    intro st
    obtain ⟨d1, hd1, hd1'⟩ := bfsPush_sync m st a
    obtain ⟨d2, hd2, hd2'⟩ := ih (bfsPush m st a)
    exact ⟨d1 ++ d2, by rw [List.foldl_cons, hd2, hd1, List.append_assoc],
      by rw [List.foldl_cons, hd2', hd1', List.append_assoc]⟩

theorem expandVertex_sync (m : Mesh) (st : BfsState) (v0 : Nat) :
    ∃ d : List Nat,
      (expandVertex m st v0).order.map Prod.fst = st.order.map Prod.fst ++ d ∧
      (expandVertex m st v0).nextFront = st.nextFront ++ d :=
  foldl_bfsPush_sync m (m.halfedgesOf v0) st

theorem expandVertex_core (m : Mesh) (sources : List Nat) (st : BfsState)
    (hwf : m.WF) (v0 : Nat) (hv0 : v0 < m.nv)
    (hv0mem : v0 ∈ st.order.map Prod.fst)
    (hc : BfsCore m sources st) : BfsCore m sources (expandVertex m st v0) := by
  unfold expandVertex
  have hgen : ∀ (hs : List Nat), (∀ h ∈ hs, h ∈ m.halfedgesOf v0) →
      ∀ st : BfsState, v0 ∈ st.order.map Prod.fst → BfsCore m sources st →
        BfsCore m sources (hs.foldl (bfsPush m) st) := by
    intro hs
    induction hs with
    | nil => intro _ st _ hc; exact hc
    | cons a t ih =>
      intro hmem st hv0m hc
      rw [List.foldl_cons]
      refine ih (fun h hh => hmem h (List.mem_cons_of_mem a hh)) _ ?_ ?_
      · obtain ⟨d, hd, -⟩ := bfsPush_sync m st a
        rw [hd]
        exact List.mem_append.2 (Or.inl hv0m)
      · exact bfsPush_core m sources st hwf v0 a hv0 (hmem a (List.mem_cons_self a t))
          hv0m hc
  exact hgen (m.halfedgesOf v0) (fun h hh => hh) st hv0mem hc

theorem expandVertex_expandInv (m : Mesh) (sources : List Nat) (st : BfsState)
    (hwf : m.WF) (v0 : Nat) (rest : List Nat)
    (hinv : ExpandInv m sources st (v0 :: rest)) :
    ExpandInv m sources (expandVertex m st v0) rest := by
  have hv0mem : v0 ∈ st.order.map Prod.fst :=
    hinv.tsub v0 (List.mem_cons_self v0 rest)
  have hv0lt : v0 < m.nv := by
    obtain ⟨p, hp, hfst⟩ := List.mem_map.1 hv0mem
    rw [← hfst]
    exact hinv.ordLT p hp
  obtain ⟨d, hd, hd'⟩ := expandVertex_sync m st v0
  refine ⟨expandVertex_core m sources st hwf v0 hv0lt hv0mem hinv.toBfsCore,
    ?_, ?_⟩
  · intro v hv
    rw [hd]
    exact List.mem_append.2 (Or.inl (hinv.tsub v (List.mem_cons_of_mem v0 hv)))
  · intro v hv
    rw [hd] at hv
    rcases List.mem_append.1 hv with hv | hv
    · rcases hinv.closedMid v hv with hv' | hv' | hv'
      · rcases List.mem_cons.1 hv' with rfl | hv''
        · exact Or.inr (Or.inr (expandVertex_visits m st v))
        · exact Or.inl hv''
      · refine Or.inr (Or.inl ?_)
        rw [hd']
        exact List.mem_append.2 (Or.inl hv')
      · exact Or.inr (Or.inr (fun h hh =>
          expandVertex_visited_mono m st v0 _ (hv' h hh)))
    · refine Or.inr (Or.inl ?_)
      rw [hd']
      exact List.mem_append.2 (Or.inr hv)

theorem expandFront_loopInv (m : Mesh) (sources : List Nat) (st : BfsState)
    (front : List Nat) (hwf : m.WF)
    (hinv : BfsLoopInv m sources st front) :
    BfsLoopInv m sources (expandFront m st front)
      (expandFront m st front).nextFront := by
  unfold expandFront
  have hstart : ExpandInv m sources { st with nextFront := [] } front := by
    obtain ⟨⟨vlen, ordLT, viff, nodup, srcpre, nfsub, parent, psome, laplen, lapdiff⟩,
      fsub, closed⟩ := hinv
    exact ⟨⟨vlen, ordLT, viff, nodup, srcpre, by simp, parent, psome, laplen, lapdiff⟩,
      fsub, fun v hv => (closed v hv).imp id (fun hcl => Or.inr hcl)⟩
  have hgen : ∀ (todo : List Nat) (st0 : BfsState),
      ExpandInv m sources st0 todo →
        ExpandInv m sources (todo.foldl (expandVertex m) st0) [] := by
    intro todo
    induction todo with
    | nil => intro st0 h0; exact h0
    | cons a t ih =>
      intro st0 h0
      exact ih _ (expandVertex_expandInv m sources st0 hwf a t h0)
  have hfin := hgen front _ hstart
  refine ⟨hfin.toBfsCore, hfin.toBfsCore.nfsub, ?_⟩
  intro v hv
  rcases hfin.closedMid v hv with h | h | h
  · simp at h
  · exact Or.inl h
  · exact Or.inr h

theorem foldl_expandVertex_sync (m : Mesh) (front : List Nat) :
    ∀ st0 : BfsState, ∃ d : List Nat,
      (front.foldl (expandVertex m) st0).order.map Prod.fst =
        st0.order.map Prod.fst ++ d ∧
      (front.foldl (expandVertex m) st0).nextFront = st0.nextFront ++ d := by
  induction front with
  | nil => intro st0; exact ⟨[], by simp⟩
  | cons a t ih =>
    intro st0
    obtain ⟨d1, hd1, hd1'⟩ := expandVertex_sync m st0 a
    obtain ⟨d2, hd2, hd2'⟩ := ih (expandVertex m st0 a)
    exact ⟨d1 ++ d2, by rw [List.foldl_cons, hd2, hd1, List.append_assoc],
      by rw [List.foldl_cons, hd2', hd1', List.append_assoc]⟩

theorem expandFront_sync (m : Mesh) (st : BfsState) (front : List Nat) :
    (expandFront m st front).order.map Prod.fst =
      st.order.map Prod.fst ++ (expandFront m st front).nextFront := by
  unfold expandFront
  obtain ⟨d, hd, hd'⟩ := foldl_expandVertex_sync m front { st with nextFront := [] }
  rw [hd, hd']
  simp

theorem expandFront_order_length (m : Mesh) (st : BfsState) (front : List Nat) :
    (expandFront m st front).order.length =
      st.order.length + (expandFront m st front).nextFront.length := by
  have hs := expandFront_sync m st front
  have : ((expandFront m st front).order.map Prod.fst).length =
      (st.order.map Prod.fst ++ (expandFront m st front).nextFront).length := by
    rw [hs]
  simpa using this

/--
Main induction over the BFS while-loop: the loop invariant propagates to
the final state (whose pending front is empty), the segment-address
vector only grows, stays sorted, and its last entry tracks the length of
`order`.
-/
theorem bfsLoop_invariant (m : Mesh) (sources : List Nat) (hwf : m.WF) :
    ∀ (n : Nat) (st : BfsState) (front segAddr : List Nat),
      unvisitedCount st.visited + front.length ≤ n →
      BfsLoopInv m sources st front →
      segAddr.getLastD 0 = st.order.length →
      1 ≤ segAddr.length →
      (∀ c, c + 1 < segAddr.length →
        segAddr.getD c 0 ≤ segAddr.getD (c+1) 0) →
      BfsLoopInv m sources (bfsLoop m st front segAddr).1 [] ∧
        (∃ tail, (bfsLoop m st front segAddr).2 = segAddr ++ tail) ∧
        (bfsLoop m st front segAddr).2.getLastD 0 =
          (bfsLoop m st front segAddr).1.order.length ∧
        1 ≤ (bfsLoop m st front segAddr).2.length ∧
        (∀ c, c + 1 < (bfsLoop m st front segAddr).2.length →
          (bfsLoop m st front segAddr).2.getD c 0 ≤
            (bfsLoop m st front segAddr).2.getD (c+1) 0) := by
  intro n
  induction n with
  | zero =>
    intro st front segAddr hn hinv hseg hlen1 hmono
    have hf : front = [] := by
      cases front with
      | nil => rfl
      | cons a t => simp at hn
    subst hf
    rw [bfsLoop_eq]
    simp only [List.isEmpty_nil, if_true]
    exact ⟨⟨hinv.toBfsCore, hinv.fsub, hinv.closed⟩, ⟨[], by simp⟩, hseg, hlen1, hmono⟩
  | succ k ih =>
    intro st front segAddr hn hinv hseg hlen1 hmono
    rw [bfsLoop_eq]
    cases front with
    | nil =>
      simp only [List.isEmpty_nil, if_true]
      exact ⟨⟨hinv.toBfsCore, hinv.fsub, hinv.closed⟩, ⟨[], by simp⟩, hseg, hlen1, hmono⟩
    | cons a t =>
      simp only [List.isEmpty_cons, Bool.false_eq_true, if_false]
      have hinv' := expandFront_loopInv m sources st (a :: t) hwf hinv
      have hμ := expandFront_measure m st (a :: t)
      have hordlen := expandFront_order_length m st (a :: t)
      have hn' : unvisitedCount (expandFront m st (a :: t)).visited +
          (expandFront m st (a :: t)).nextFront.length ≤ k := by
        have : (a :: t).length = t.length + 1 := by simp
        omega
      have hseg' : (segAddr ++ [segAddr.getLastD 0 +
          (expandFront m st (a :: t)).nextFront.length]).getLastD 0 =
          (expandFront m st (a :: t)).order.length := by
        rw [show (segAddr ++ [segAddr.getLastD 0 +
            (expandFront m st (a :: t)).nextFront.length]).getLastD 0 =
          segAddr.getLastD 0 + (expandFront m st (a :: t)).nextFront.length by simp,
          hseg, hordlen]
      have hlen1' : 1 ≤ (segAddr ++ [segAddr.getLastD 0 +
          (expandFront m st (a :: t)).nextFront.length]).length := by
        simp
      have hmono' : ∀ c, c + 1 < (segAddr ++ [segAddr.getLastD 0 +
          (expandFront m st (a :: t)).nextFront.length]).length →
          (segAddr ++ [segAddr.getLastD 0 +
            (expandFront m st (a :: t)).nextFront.length]).getD c 0 ≤
          (segAddr ++ [segAddr.getLastD 0 +
            (expandFront m st (a :: t)).nextFront.length]).getD (c+1) 0 := by
        intro c hc
        rw [List.length_append, List.length_singleton] at hc
        by_cases hlt : c + 1 < segAddr.length
        · rw [getD_append_lt _ _ _ _ (by omega), getD_append_lt _ _ _ _ hlt]
          exact hmono c hlt
        · have hceq : c + 1 = segAddr.length := by omega
          rw [show c + 1 = segAddr.length from hceq, getD_append_len,
            getD_append_lt _ _ _ _ (by omega),
            getD_last_of_len segAddr c 0 (by omega)]
          omega
      obtain ⟨hres1, ⟨tail, htail⟩, hres3, hres4, hres5⟩ :=
        ih _ _ _ hn' hinv' hseg' hlen1' hmono'
      exact ⟨hres1, ⟨(segAddr.getLastD 0 +
        (expandFront m st (a :: t)).nextFront.length) :: tail,
        by rw [htail, List.append_assoc]; rfl⟩, hres3, hres4, hres5⟩

theorem bfsInit_fold (m : Mesh) :
    ∀ (rem done : List Nat) (st : BfsState),
      st.order = done.map (fun v => (v, none)) →
      st.nextFront = [] →
      st.visited.length = m.nv →
      (∀ v < m.nv, (st.visited.getD v true = true ↔ v ∈ done)) →
      st.lapAddr.length = st.order.length + 1 →
      (∀ i < st.order.length, st.lapAddr.getD (i+1) 0 =
        st.lapAddr.getD i 0 + (m.valence ((st.order.getD i (0, none)).1) + 1)) →
      (rem.foldl (bfsInitStep m) st).order = (done ++ rem).map (fun v => (v, none)) ∧
        (rem.foldl (bfsInitStep m) st).nextFront = [] ∧
        (rem.foldl (bfsInitStep m) st).visited.length = m.nv ∧
        (∀ v < m.nv, ((rem.foldl (bfsInitStep m) st).visited.getD v true = true ↔
          v ∈ done ++ rem)) ∧
        (rem.foldl (bfsInitStep m) st).lapAddr.length =
          (rem.foldl (bfsInitStep m) st).order.length + 1 ∧
        (∀ i < (rem.foldl (bfsInitStep m) st).order.length,
          (rem.foldl (bfsInitStep m) st).lapAddr.getD (i+1) 0 =
            (rem.foldl (bfsInitStep m) st).lapAddr.getD i 0 +
              (m.valence (((rem.foldl (bfsInitStep m) st).order.getD i (0, none)).1) + 1)) := by
  intro rem
  induction rem with
  | nil =>
    intro done st h1 h2 h3 h4 h5 h6
    simp only [List.foldl_nil, List.append_nil]
    exact ⟨h1, h2, h3, h4, h5, h6⟩
  | cons a rest ih =>
    intro done st h1 h2 h3 h4 h5 h6
    rw [List.foldl_cons]
    have hstep1 : (bfsInitStep m st a).order = (done ++ [a]).map (fun v => (v, none)) := by
      simp [bfsInitStep, h1]
    have hstep4 : ∀ v < m.nv, ((bfsInitStep m st a).visited.getD v true = true ↔
        v ∈ done ++ [a]) := by
      intro v hv
      simp only [bfsInitStep]
      rw [getD_set_true_iff, List.mem_append]
      constructor
      · rintro (rfl | hvv)
        · exact Or.inr (by simp)
        · exact Or.inl ((h4 v hv).1 hvv)
      · rintro (hm | hm)
        · exact Or.inr ((h4 v hv).2 hm)
        · simp at hm
          exact Or.inl hm
    have hstep5 : (bfsInitStep m st a).lapAddr.length =
        (bfsInitStep m st a).order.length + 1 := by
      simp [bfsInitStep, h5]
    have hstep6 : ∀ i < (bfsInitStep m st a).order.length,
        (bfsInitStep m st a).lapAddr.getD (i+1) 0 =
          (bfsInitStep m st a).lapAddr.getD i 0 +
            (m.valence (((bfsInitStep m st a).order.getD i (0, none)).1) + 1) := by
      intro i hi
      simp only [bfsInitStep]
      simp only [bfsInitStep, List.length_append, List.length_singleton] at hi
      by_cases hilt : i < st.order.length
      · rw [getD_append_lt _ _ _ _ (by omega), getD_append_lt _ _ _ _ (by omega),
          getD_append_lt _ _ _ _ hilt]
        exact h6 i hilt
      · have hieq : i = st.order.length := by omega
        subst hieq
        rw [show st.order.length + 1 = st.lapAddr.length by omega, getD_append_len,
          getD_append_lt _ _ _ _ (by omega), getD_append_len,
          getD_last_of_len st.lapAddr st.order.length 0 h5]
    have := ih (done ++ [a]) (bfsInitStep m st a) hstep1 (by simp [bfsInitStep, h2])
      (by simp [bfsInitStep, h3]) hstep4 hstep5 hstep6
    simpa [List.append_assoc] using this

/--
`bfsInit` establishes the BFS loop invariant with the source list as the
initial front.
-/
theorem bfsInit_loopInv (m : Mesh) (sources : List Nat)
    (hnd : sources.Nodup) (hsrc : ∀ s ∈ sources, s < m.nv) :
    BfsLoopInv m sources (bfsInit m sources) sources ∧
      (bfsInit m sources).order.length = sources.length := by
  have hviff0 : ∀ v < m.nv,
      (((List.replicate m.nv false : List Bool)).getD v true = true ↔
        v ∈ ([] : List Nat)) := by
    intro v hv
    rw [List.getD_eq_getElem?_getD, List.getElem?_replicate, if_pos hv]
    simp
  obtain ⟨h1, h2, h3, h4, h5, h6⟩ :=
    bfsInit_fold m sources []
      { visited := List.replicate m.nv false, order := [], lapAddr := [0],
        nextFront := [] }
      (by simp) rfl (by simp) hviff0 (by simp) (by intro i hi; simp at hi)
  rw [List.nil_append] at h1 h4
  have H1 : (bfsInit m sources).order = sources.map (fun v => (v, none)) := h1
  have H2 : (bfsInit m sources).nextFront = [] := h2
  have H3 : (bfsInit m sources).visited.length = m.nv := h3
  have H4 : ∀ v < m.nv,
      ((bfsInit m sources).visited.getD v true = true ↔ v ∈ sources) := h4
  have H5 : (bfsInit m sources).lapAddr.length = (bfsInit m sources).order.length + 1 := h5
  have H6 : ∀ i < (bfsInit m sources).order.length,
      (bfsInit m sources).lapAddr.getD (i+1) 0 =
        (bfsInit m sources).lapAddr.getD i 0 +
          (m.valence (((bfsInit m sources).order.getD i (0, none)).1) + 1) := h6
  have hmapfst : (bfsInit m sources).order.map Prod.fst = sources := by
    rw [H1, List.map_map]
    exact List.map_id sources
  have hlen : (bfsInit m sources).order.length = sources.length := by
    rw [H1]
    simp
  have hcore : BfsCore m sources (bfsInit m sources) := by
    refine ⟨H3, ?_, ?_, ?_, ?_, ?_, ?_, ?_, H5, H6⟩
    · intro p hp
      rw [H1] at hp
      obtain ⟨v, hv, rfl⟩ := List.mem_map.1 hp
      exact hsrc v hv
    · intro v hv
      rw [hmapfst]
      exact H4 v hv
    · rw [hmapfst]
      exact hnd
    · exact ⟨[], by rw [H1, List.append_nil]⟩
    · intro v hv
      rw [H2] at hv
      simp at hv
    · intro i v h hget
      rw [H1, List.getElem?_map] at hget
      rcases hsi : sources[i]? with - | sv
      · rw [hsi] at hget
        simp at hget
      · rw [hsi] at hget
        simp at hget
    · intro i hge hlt
      rw [hlen] at hlt
      omega
  exact ⟨⟨hcore, fun v hv => by rw [hmapfst]; exact hv,
    fun v hv => Or.inl (by rw [hmapfst] at hv; exact hv)⟩, hlen⟩

/--
Master specification of `init_bfs_paths` under the planner's
preconditions: the loop invariant at the final (empty-front) state,
plus the bookkeeping facts about `bfs_segment_addr`.
-/
theorem init_bfs_paths_inv (m : Mesh) (sources : List Nat) (hwf : m.WF)
    (hnd : sources.Nodup) (hsrc : ∀ s ∈ sources, s < m.nv) :
    BfsLoopInv m sources (init_bfs_paths m sources).1 [] ∧
      (∃ tail, (init_bfs_paths m sources).2 = [0, sources.length] ++ tail) ∧
      (init_bfs_paths m sources).2.getLastD 0 =
        (init_bfs_paths m sources).1.order.length ∧
      1 ≤ (init_bfs_paths m sources).2.length ∧
      (∀ c, c + 1 < (init_bfs_paths m sources).2.length →
        (init_bfs_paths m sources).2.getD c 0 ≤
          (init_bfs_paths m sources).2.getD (c+1) 0) := by
  obtain ⟨hinv, hlen⟩ := bfsInit_loopInv m sources hnd hsrc
  exact bfsLoop_invariant m sources hwf
    (unvisitedCount (bfsInit m sources).visited + sources.length)
    (bfsInit m sources) sources [0, sources.length] (le_refl _) hinv
    (by rw [hlen]; rfl)
    (by simp)
    (by
      intro c hc
      have hc0 : c = 0 := by
        simp at hc
        omega
      subst hc0
      exact Nat.zero_le _)

theorem bfs_sources_mem (m : Mesh) (sources : List Nat) (st : BfsState)
    (hc : BfsCore m sources st) :
    ∀ s ∈ sources, s ∈ st.order.map Prod.fst := by
  obtain ⟨rest, hrest⟩ := hc.srcpre
  intro s hs
  rw [hrest, List.map_append]
  refine List.mem_append.2 (Or.inl ?_)
  exact List.mem_map.2 ⟨(s, none), List.mem_map.2 ⟨s, hs, rfl⟩, rfl⟩

theorem bfs_reach_mem (m : Mesh) (sources : List Nat) (st : BfsState)
    (hwf : m.WF) (hinv : BfsLoopInv m sources st []) :
    ∀ v, Reach m sources v → v ∈ st.order.map Prod.fst := by
  intro v hr
  induction hr with
  | source hv => exact bfs_sources_mem m sources st hinv.toBfsCore _ hv
  | @step u v' hu h hh hv ih =>
    have hult : u < m.nv := by
      obtain ⟨p, hp, hfst⟩ := List.mem_map.1 ih
      rw [← hfst]
      exact hinv.ordLT p hp
    rcases hinv.closed _ ih with hfr | hcl
    · simp at hfr
    · have hvis := hcl h hh
      have hwlt : m.toV h < m.nv := hwf.toV_lt u hult h hh
      subst hv
      exact (hinv.viff _ hwlt).1 hvis

/--
**C4**: the BFS planner contracts.  For every well-formed connected mesh
with distinct in-range sources, after `init_bfs_paths`:
`bfs_vertex_list` is a permutation of the vertex set whose first
`|sources|` entries are the sources in input order; for every non-source
position, the recorded transition halfedge points at that position's
vertex and leaves from a vertex recorded at an earlier position; and
`bfs_laplacian_coef_addr[i+1] - bfs_laplacian_coef_addr[i] =
valence(order[i]) + 1` at every position.
-/
theorem C4_bfs_planner_contracts (m : Mesh) (sources : List Nat)
    (hwf : m.WF) (hnd : sources.Nodup) (hsrc : ∀ s ∈ sources, s < m.nv)
    (hconn : ∀ v < m.nv, Reach m sources v) :
    (bfs_vertex_list m sources).Perm (List.range m.nv) ∧
      (bfs_vertex_list m sources).take sources.length = sources ∧
      (∀ (i v h : Nat),
        (init_bfs_paths m sources).1.order[i]? = some (v, some h) →
          m.toV h = v ∧ ∃ j < i, ∃ p : Nat × Option Nat,
            (init_bfs_paths m sources).1.order[j]? = some p ∧
              p.1 = m.fromV h) ∧
      ((bfs_laplacian_coef_addr m sources).length =
          (bfs_vertex_list m sources).length + 1 ∧
        ∀ i < (bfs_vertex_list m sources).length,
          (bfs_laplacian_coef_addr m sources).getD (i+1) 0 -
              (bfs_laplacian_coef_addr m sources).getD i 0 =
            m.valence ((bfs_vertex_list m sources).getD i 0) + 1) := by
  obtain ⟨hinv, -, -, -, -⟩ := init_bfs_paths_inv m sources hwf hnd hsrc
  refine ⟨?_, ?_, hinv.parent, ?_, ?_⟩
  · have hsub1 : bfs_vertex_list m sources ⊆ List.range m.nv := by
      intro v hv
      obtain ⟨p, hp, hfst⟩ := List.mem_map.1 hv
      rw [← hfst]
      exact List.mem_range.2 (hinv.ordLT p hp)
    have hsub2 : List.range m.nv ⊆ bfs_vertex_list m sources := fun v hv =>
      bfs_reach_mem m sources _ hwf hinv v (hconn v (List.mem_range.1 hv))
    exact (hinv.nodup.subperm hsub1).antisymm
      ((List.nodup_range m.nv).subperm hsub2)
  · obtain ⟨rest, hrest⟩ := hinv.srcpre
    rw [show bfs_vertex_list m sources =
      ((init_bfs_paths m sources).1.order).map Prod.fst from rfl, hrest,
      List.map_append, List.map_map,
      show List.map (Prod.fst ∘ fun v => (v, (none : Option Nat))) sources =
        sources from List.map_id sources,
      show sources.length = (sources : List Nat).length from rfl,
      List.take_left]
  · rw [show bfs_laplacian_coef_addr m sources =
      (init_bfs_paths m sources).1.lapAddr from rfl]
    rw [show (bfs_vertex_list m sources).length =
      (init_bfs_paths m sources).1.order.length by
        simp [bfs_vertex_list]]
    exact hinv.laplen
  · intro i hi
    have hilen : i < (init_bfs_paths m sources).1.order.length := by
      simpa [bfs_vertex_list] using hi
    have hdiff := hinv.lapdiff i hilen
    have hfst : (bfs_vertex_list m sources).getD i 0 =
        ((init_bfs_paths m sources).1.order.getD i (0, none)).1 := by
      simp only [bfs_vertex_list, List.getD_eq_getElem?_getD, List.getElem?_map]
      rcases hoi : (init_bfs_paths m sources).1.order[i]? with - | p
      · rw [List.getElem?_eq_none_iff] at hoi
        omega
      · simp
    rw [show bfs_laplacian_coef_addr m sources =
      (init_bfs_paths m sources).1.lapAddr from rfl, hfst, hdiff]
    omega

/-- Closed witness for `C4_bfs_planner_contracts`: the triangle mesh with
source vertex 0. -/
theorem C4_witness :
    (triMesh.WF ∧ ([0] : List Nat).Nodup ∧
      (∀ s ∈ ([0] : List Nat), s < triMesh.nv) ∧
      (∀ v < triMesh.nv, Reach triMesh [0] v)) ∧
      (bfs_vertex_list triMesh [0]).Perm (List.range triMesh.nv) := by
  have hwf : triMesh.WF := ⟨by decide, by decide⟩
  have hconn : ∀ v < triMesh.nv, Reach triMesh [0] v := by
    intro v hv
    have hv3 : v < 3 := hv
    interval_cases v
    · exact Reach.source (by decide)
    · exact Reach.step (show Reach triMesh [0] 0 from Reach.source (by decide)) 0
        (by decide) (by decide)
    · exact Reach.step (show Reach triMesh [0] 0 from Reach.source (by decide)) 5
        (by decide) (by decide)
  exact ⟨⟨hwf, by decide, by decide, hconn⟩,
    (C4_bfs_planner_contracts triMesh [0] hwf (by decide) (by decide) hconn).1⟩

/-! ### Tree integration -/

theorem range'_append_simple (s m n : Nat) :
    List.range' s m ++ List.range' (s+m) n = List.range' s (m+n) := by
  have := List.range'_append s m n 1
  simpa [Nat.add_comm] using this

theorem range'_cons (s n : Nat) :
    List.range' s (n+1) = s :: List.range' (s+1) n := by
  simpa using List.range'_succ s n 1

theorem getD_mem_of_lt {α : Type} (l : List α) (i : Nat) (h : i < l.length) (d : α) :
    l.getD i d ∈ l := by
  rw [List.getD_eq_getElem?_getD, List.getElem?_eq_getElem h]
  exact List.getElem_mem h

theorem mono_chain (n : Nat) (f : Nat → Nat)
    (hmono : ∀ c, c + 1 < n → f c ≤ f (c+1)) :
    ∀ a b, a ≤ b → b < n → f a ≤ f b := by
  intro a b hab hb
  induction b, hab using Nat.le_induction with
  | base => exact le_refl _
  | succ b hab ih => exact le_trans (ih (by omega)) (hmono b hb)

theorem integrateAt_length (X : List ℚ) (orderV : List Nat) (tFrom tEdge : List Int)
    (dist : List ℚ) (i : Nat) :
    (integrateAt X orderV tFrom tEdge dist i).length = dist.length := by
  simp only [integrateAt]
  split <;> simp

theorem integrateAt_getD_ne (X : List ℚ) (orderV : List Nat) (tFrom tEdge : List Int)
    (dist : List ℚ) (i : Nat) (v : Nat) (hv : orderV.getD i 0 ≠ v) :
    (integrateAt X orderV tFrom tEdge dist i).getD v 0 = dist.getD v 0 := by
  simp only [integrateAt]
  split <;> exact getD_set_ne _ _ _ _ _ hv

theorem integrate_foldl_untouched (X : List ℚ) (orderV : List Nat)
    (tFrom tEdge : List Int) (P : List Nat) (v : Nat)
    (hv : ∀ p ∈ P, orderV.getD p 0 ≠ v) :
    ∀ dist : List ℚ,
      (P.foldl (integrateAt X orderV tFrom tEdge) dist).getD v 0 = dist.getD v 0 := by
  induction P with
  | nil => intro dist; rfl
  | cons a t ih =>
    intro dist
    rw [List.foldl_cons, ih (fun p hp => hv p (List.mem_cons_of_mem a hp)),
      integrateAt_getD_ne X orderV tFrom tEdge dist a v (hv a (List.mem_cons_self a t))]

theorem integrate_foldl_length (X : List ℚ) (orderV : List Nat)
    (tFrom tEdge : List Int) (P : List Nat) :
    ∀ dist : List ℚ,
      (P.foldl (integrateAt X orderV tFrom tEdge) dist).length = dist.length :=
  foldl_length_invariant _ P (fun d i => integrateAt_length X orderV tFrom tEdge d i)

/--
The value written at position `i` survives to the end of the integration
scan (the later positions write elsewhere), and equals the code's
assignment with the base read from the parent's (already final) entry.
-/
theorem integrate_foldl_formula (X : List ℚ) (orderV : List Nat)
    (tFrom tEdge : List Int) (P₁ P₂ : List Nat) (i : Nat) (dist : List ℚ)
    (htlen : orderV.getD i 0 < dist.length)
    (hP₂ : ∀ p ∈ P₂, orderV.getD p 0 ≠ orderV.getD i 0)
    (hparent : ∀ p ∈ P₂, orderV.getD p 0 ≠ (tFrom.getD i (-1)).toNat)
    (hparent_i : orderV.getD i 0 ≠ (tFrom.getD i (-1)).toNat) :
    ((0 ≤ tEdge.getD i (-1) →
      ((P₁ ++ i :: P₂).foldl (integrateAt X orderV tFrom tEdge) dist).getD
          (orderV.getD i 0) 0 =
        ((P₁ ++ i :: P₂).foldl (integrateAt X orderV tFrom tEdge) dist).getD
            (tFrom.getD i (-1)).toNat 0 + X.getD (tEdge.getD i (-1)).toNat 0) ∧
     (tEdge.getD i (-1) < 0 →
      ((P₁ ++ i :: P₂).foldl (integrateAt X orderV tFrom tEdge) dist).getD
          (orderV.getD i 0) 0 =
        ((P₁ ++ i :: P₂).foldl (integrateAt X orderV tFrom tEdge) dist).getD
            (tFrom.getD i (-1)).toNat 0 -
          X.getD (-(tEdge.getD i (-1) + 1)).toNat 0)) := by
  have hsplit : (P₁ ++ i :: P₂).foldl (integrateAt X orderV tFrom tEdge) dist =
      P₂.foldl (integrateAt X orderV tFrom tEdge)
        (integrateAt X orderV tFrom tEdge
          (P₁.foldl (integrateAt X orderV tFrom tEdge) dist) i) := by
    rw [List.foldl_append, List.foldl_cons]
  have hmidlen : (P₁.foldl (integrateAt X orderV tFrom tEdge) dist).length =
      dist.length := integrate_foldl_length X orderV tFrom tEdge P₁ dist
  have hbase : ((P₁ ++ i :: P₂).foldl (integrateAt X orderV tFrom tEdge) dist).getD
      (tFrom.getD i (-1)).toNat 0 =
      (P₁.foldl (integrateAt X orderV tFrom tEdge) dist).getD
        (tFrom.getD i (-1)).toNat 0 := by
    rw [hsplit, integrate_foldl_untouched X orderV tFrom tEdge P₂ _ hparent,
      integrateAt_getD_ne X orderV tFrom tEdge _ i _ hparent_i]
  have htgt : ((P₁ ++ i :: P₂).foldl (integrateAt X orderV tFrom tEdge) dist).getD
      (orderV.getD i 0) 0 =
      (integrateAt X orderV tFrom tEdge
        (P₁.foldl (integrateAt X orderV tFrom tEdge) dist) i).getD
        (orderV.getD i 0) 0 := by
    rw [hsplit, integrate_foldl_untouched X orderV tFrom tEdge P₂ _ hP₂]
  constructor
  · intro he
    rw [htgt, hbase]
    simp only [integrateAt]
    rw [if_pos he, getD_set_self _ _ _ _ (by rw [hmidlen]; exact htlen)]
  · intro he
    rw [htgt, hbase]
    simp only [integrateAt]
    rw [if_neg (by omega), getD_set_self _ _ _ _ (by rw [hmidlen]; exact htlen)]

/--
With monotone segment addresses the segment loop is a single ascending
scan: `integrateLoopAux` from segment `c` folds the integration body
over the contiguous position range from `segAddr[c]` to the final
address.
-/
theorem integrateLoopAux_eq_foldl (X : List ℚ) (orderV : List Nat)
    (tFrom tEdge : List Int) (segAddr : List Nat)
    (hmono : ∀ c, c + 1 < segAddr.length →
      segAddr.getD c 0 ≤ segAddr.getD (c+1) 0) :
    ∀ (fuel c : Nat) (dist : List ℚ), 1 ≤ c → c + 1 ≤ segAddr.length - 1 →
      segAddr.length - 1 - c ≤ fuel →
      integrateLoopAux X orderV tFrom tEdge segAddr fuel c dist =
        (List.range' (segAddr.getD c 0)
          (segAddr.getD (segAddr.length - 1) 0 - segAddr.getD c 0)).foldl
          (integrateAt X orderV tFrom tEdge) dist := by
  intro fuel
  induction fuel with
  | zero =>
    intro c dist hc1 hc2 hf
    exfalso
    omega
  | succ fuel ih =>
    intro c dist hc1 hc2 hf
    rw [integrateLoopAux]
    by_cases hend : segAddr.length - 1 ≤ c + 1
    · rw [if_pos hend]
      have hceq : c + 1 = segAddr.length - 1 := by omega
      rw [integrateSegment, hceq]
    · rw [if_neg hend]
      rw [ih (c+1) _ (by omega) (by omega) (by omega)]
      have hcc : segAddr.getD c 0 ≤ segAddr.getD (c+1) 0 :=
        hmono c (by omega)
      have hclast : segAddr.getD (c+1) 0 ≤ segAddr.getD (segAddr.length - 1) 0 :=
        mono_chain segAddr.length (fun j => segAddr.getD j 0) hmono (c+1)
          (segAddr.length - 1) (by omega) (by omega)
      have hconcat := range'_append_simple (segAddr.getD c 0)
        (segAddr.getD (c+1) 0 - segAddr.getD c 0)
        (segAddr.getD (segAddr.length - 1) 0 - segAddr.getD (c+1) 0)
      rw [show segAddr.getD c 0 + (segAddr.getD (c+1) 0 - segAddr.getD c 0) =
        segAddr.getD (c+1) 0 by omega] at hconcat
      rw [show segAddr.getD (c+1) 0 - segAddr.getD c 0 +
          (segAddr.getD (segAddr.length - 1) 0 - segAddr.getD (c+1) 0) =
        segAddr.getD (segAddr.length - 1) 0 - segAddr.getD c 0 by omega] at hconcat
      rw [integrateSegment, ← List.foldl_append, hconcat]

theorem nonsource_getD (sources R : List Nat) (hnd : (sources ++ R).Nodup)
    (p : Nat) (hp1 : sources.length ≤ p) (hp2 : p < (sources ++ R).length)
    (s : Nat) (hs : s ∈ sources) : (sources ++ R).getD p 0 ≠ s := by
  have hplt : p - sources.length < R.length := by
    rw [List.length_append] at hp2
    omega
  have hgd : (sources ++ R).getD p 0 = R.getD (p - sources.length) 0 := by
    simp only [List.getD_eq_getElem?_getD]
    rw [List.getElem?_append_right (by omega)]
  have hmem : R.getD (p - sources.length) 0 ∈ R := getD_mem_of_lt R _ hplt 0
  intro heq
  have hdisj := (List.nodup_append.1 hnd).2.2
  rw [hgd] at heq
  exact hdisj hs (heq ▸ hmem)

theorem integrateLoopAux_preserves_zero (X : List ℚ) (orderV : List Nat)
    (tFrom tEdge : List Int) (segAddr : List Nat) (s : Nat) (srcLen : Nat)
    (hseg1 : segAddr.getD 1 0 = srcLen)
    (hmono : ∀ c, c + 1 < segAddr.length →
      segAddr.getD c 0 ≤ segAddr.getD (c+1) 0)
    (hlastle : segAddr.getD (segAddr.length - 1) 0 ≤ orderV.length)
    (hsneq : ∀ p, srcLen ≤ p → p < orderV.length → orderV.getD p 0 ≠ s) :
    ∀ (fuel c : Nat) (dist : List ℚ), 1 ≤ c → dist.getD s 0 = 0 →
      (integrateLoopAux X orderV tFrom tEdge segAddr fuel c dist).getD s 0 = 0 := by
  intro fuel
  induction fuel with
  | zero =>
    intro c dist hc hd
    exact hd
  | succ fuel ih =>
    intro c dist hc hd
    rw [integrateLoopAux]
    have hseg : (integrateSegment X orderV tFrom tEdge dist
        (segAddr.getD c 0) (segAddr.getD (c+1) 0)).getD s 0 = 0 := by
      rw [integrateSegment, integrate_foldl_untouched]
      · exact hd
      · intro p hp
        rw [List.mem_range'_1] at hp
        obtain ⟨hp1, hp2⟩ := hp
        by_cases hc1 : c + 1 < segAddr.length
        · have hcc := hmono c hc1
          have h2 : segAddr.getD (c+1) 0 ≤ segAddr.getD (segAddr.length - 1) 0 :=
            mono_chain _ _ hmono (c+1) (segAddr.length - 1) (by omega) (by omega)
          have h1c : segAddr.getD 1 0 ≤ segAddr.getD c 0 :=
            mono_chain _ _ hmono 1 c hc (by omega)
          exact hsneq p (by omega) (by omega)
        · rw [List.getD_eq_default segAddr 0 (show segAddr.length ≤ c + 1 by omega)]
            at hp2
          omega
    by_cases hend : segAddr.length - 1 ≤ c + 1
    · rw [if_pos hend]
      exact hseg
    · rw [if_neg hend]
      exact ih (c+1) _ (by omega) hseg

theorem replicate_getD_zero (n s : Nat) : (List.replicate n (0:ℚ)).getD s 0 = 0 := by
  by_cases h : s < n
  · rw [List.getD_eq_getElem?_getD, List.getElem?_replicate, if_pos h]
    rfl
  · rw [List.getD_eq_default]
    simp
    omega

theorem map_scale_getD (l : List ℚ) (c : ℚ) (s : Nat) (h : l.getD s 0 = 0) :
    (l.map (fun d => d * c)).getD s 0 = 0 := by
  rw [List.getD_eq_getElem?_getD, List.getElem?_map]
  rcases hgo : l[s]? with - | d
  · rfl
  · have hd : d = 0 := by
      rw [List.getD_eq_getElem?_getD, hgo] at h
      exact h
    simp [hd]

/-- The BFS vertex list decomposes as the sources followed by the
discovered vertices. -/
theorem bfs_vertex_list_decomp (m : Mesh) (sources : List Nat)
    (rest : List (Nat × Option Nat))
    (hrest : (init_bfs_paths m sources).1.order =
      (sources.map fun v => (v, none)) ++ rest) :
    bfs_vertex_list m sources = sources ++ rest.map Prod.fst := by
  rw [show bfs_vertex_list m sources =
    ((init_bfs_paths m sources).1.order).map Prod.fst from rfl, hrest,
    List.map_append, List.map_map,
    show List.map (Prod.fst ∘ fun v => (v, (none : Option Nat))) sources =
      sources from List.map_id sources]

/--
**C9**: after tree integration and the final rescaling by
`model_scaling_factor`, the output distance at every source vertex is
exactly 0: the integrator starts from the zero vector and, because
propagation starts at the second BFS layer, it never writes a source
entry.
-/
theorem C9_source_distance_zero (m : Mesh) (sources : List Nat) (X : List ℚ)
    (model_scaling_factor : ℚ) (hwf : m.WF) (hnd : sources.Nodup)
    (hsrc : ∀ s ∈ sources, s < m.nv)
    (hconn : ∀ v < m.nv, Reach m sources v) :
    ∀ s ∈ sources,
      (integrate_geodesic_distance m sources X model_scaling_factor).getD s 0 = 0 := by
  obtain ⟨hinv, ⟨tail, htail⟩, hlast, hlen1, hmono⟩ :=
    init_bfs_paths_inv m sources hwf hnd hsrc
  intro s hs
  obtain ⟨rest, hrest⟩ := hinv.srcpre
  have horder := bfs_vertex_list_decomp m sources rest hrest
  have hnodup : (sources ++ rest.map Prod.fst).Nodup := by
    rw [← horder]
    exact hinv.nodup
  have hsneq : ∀ p, sources.length ≤ p → p < (bfs_vertex_list m sources).length →
      (bfs_vertex_list m sources).getD p 0 ≠ s := by
    intro p hp1 hp2
    rw [horder]
    rw [horder] at hp2
    exact nonsource_getD sources (rest.map Prod.fst) hnodup p hp1 hp2 s hs
  have htail' : bfs_segment_addr m sources = [0, sources.length] ++ tail := htail
  have hlast' : (bfs_segment_addr m sources).getLastD 0 =
      (init_bfs_paths m sources).1.order.length := hlast
  have hlen1' : 1 ≤ (bfs_segment_addr m sources).length := hlen1
  have hseg1 : (bfs_segment_addr m sources).getD 1 0 = sources.length := by
    rw [htail', getD_append_lt _ _ _ _ (by simp)]
    rfl
  have hvlen : (bfs_vertex_list m sources).length =
      (init_bfs_paths m sources).1.order.length := by
    simp [bfs_vertex_list]
  have hlastle : (bfs_segment_addr m sources).getD
      ((bfs_segment_addr m sources).length - 1) 0 ≤
      (bfs_vertex_list m sources).length := by
    rw [hvlen, ← hlast',
      getD_last_of_len (bfs_segment_addr m sources)
        ((bfs_segment_addr m sources).length - 1) 0 (by omega)]
  rw [integrate_geodesic_distance]
  refine map_scale_getD _ _ _ ?_
  rw [integrate_unscaled]
  exact integrateLoopAux_preserves_zero X (bfs_vertex_list m sources)
    (transition_from_vtx m sources) (transition_edge_idx m sources)
    (bfs_segment_addr m sources) s sources.length hseg1 hmono hlastle hsneq
    (bfs_segment_addr m sources).length 1 (List.replicate m.nv 0) (le_refl 1)
    (replicate_getD_zero m.nv s)

/-- Closed witness for `C9_source_distance_zero`: the triangle mesh with
source 0, arbitrary edge differences and scale. -/
theorem C9_witness :
    (triMesh.WF ∧ ([0] : List Nat).Nodup ∧
      (∀ s ∈ ([0] : List Nat), s < triMesh.nv) ∧
      (∀ v < triMesh.nv, Reach triMesh [0] v)) ∧
      (∀ s ∈ ([0] : List Nat),
        (integrate_geodesic_distance triMesh [0] [5, 7, 11] 2).getD s 0 = 0) := by
  have hwf : triMesh.WF := ⟨by decide, by decide⟩
  have hconn : ∀ v < triMesh.nv, Reach triMesh [0] v := by
    intro v hv
    have hv3 : v < 3 := hv
    interval_cases v
    · exact Reach.source (by decide)
    · exact Reach.step (show Reach triMesh [0] 0 from Reach.source (by decide)) 0
        (by decide) (by decide)
    · exact Reach.step (show Reach triMesh [0] 0 from Reach.source (by decide)) 5
        (by decide) (by decide)
  exact ⟨⟨hwf, by decide, by decide, hconn⟩,
    C9_source_distance_zero triMesh [0] [5, 7, 11] 2 hwf (by decide) (by decide) hconn⟩

theorem orderV_getD (m : Mesh) (sources : List Nat) (i : Nat)
    (hi : i < (init_bfs_paths m sources).1.order.length) :
    (bfs_vertex_list m sources).getD i 0 =
      ((init_bfs_paths m sources).1.order.getD i ((0:Nat), (none : Option Nat))).1 := by
  simp only [bfs_vertex_list, List.getD_eq_getElem?_getD, List.getElem?_map]
  rw [List.getElem?_eq_getElem hi]
  rfl

theorem tFrom_getD (m : Mesh) (sources : List Nat) (i : Nat)
    (hi : i < (init_bfs_paths m sources).1.order.length) :
    (transition_from_vtx m sources).getD i (-1) =
      (transition_tables m
        (((init_bfs_paths m sources).1.order.getD i
          ((0:Nat), (none : Option Nat)))).2).1 := by
  simp only [transition_from_vtx, transition_halfedge_idx,
    List.getD_eq_getElem?_getD, List.getElem?_map]
  rw [List.getElem?_eq_getElem hi]
  rfl

theorem tEdge_getD (m : Mesh) (sources : List Nat) (i : Nat)
    (hi : i < (init_bfs_paths m sources).1.order.length) :
    (transition_edge_idx m sources).getD i (-1) =
      (transition_tables m
        (((init_bfs_paths m sources).1.order.getD i
          ((0:Nat), (none : Option Nat)))).2).2 := by
  simp only [transition_edge_idx, transition_halfedge_idx,
    List.getD_eq_getElem?_getD, List.getElem?_map]
  rw [List.getElem?_eq_getElem hi]
  rfl

theorem transition_tables_fst (m : Mesh) (h : Nat) :
    (transition_tables m (some h)).1 = (m.fromV h : Int) := by
  simp only [transition_tables]
  split <;> rfl

theorem nodup_getD_ne (l : List Nat) (hl : l.Nodup) (i j : Nat)
    (hi : i < l.length) (hj : j < l.length) (hne : i ≠ j) :
    l.getD i 0 ≠ l.getD j 0 := by
  rw [List.getD_eq_getElem l 0 hi, List.getD_eq_getElem l 0 hj]
  intro he
  exact hne (List.Nodup.getElem_inj_iff hl |>.1 he)

/--
**C1** (counterexample): on the triangle mesh with source 0, BFS
position 2 stores the non-negative transition edge index 2, and the
integrator assigns `dist[order[2]] = base + X[2]`, not `base - X[2]` as
claimed: with `X = [0, 0, 1]` and `base = dist[0] = 0` the assigned
value is `1`, not `-1`.
-/
theorem C1_sign_counterexample :
    (transition_edge_idx triMesh [0]).getD 2 (-1) = 2 ∧
      (transition_from_vtx triMesh [0]).getD 2 (-1) = 0 ∧
      (bfs_vertex_list triMesh [0]).getD 2 0 = 2 ∧
      (integrate_unscaled triMesh [0] [0, 0, 1]).getD 2 0 =
        (integrate_unscaled triMesh [0] [0, 0, 1]).getD 0 0 +
          ([0, 0, 1] : List ℚ).getD 2 0 ∧
      (integrate_unscaled triMesh [0] [0, 0, 1]).getD 2 0 ≠
        (integrate_unscaled triMesh [0] [0, 0, 1]).getD 0 0 -
          ([0, 0, 1] : List ℚ).getD 2 0 := by
  refine ⟨by decide, by decide, by decide, by with_unfolding_all decide,
    by with_unfolding_all decide⟩

/--
**C1** (amended): tree integration sign convention, as the code executes
it.  For every non-source BFS position `i` (well-formed connected mesh,
distinct in-range sources), with `base = dist[transition_from[i]]` drawn
from the final integrated vector: if the stored
`transition_edge_idx[i] = e ≥ 0` then
`dist[order[i]] = base + X[e]`, and otherwise, with
`e' = -(transition_edge_idx[i]) - 1`,
`dist[order[i]] = base - X[e']`.
-/
theorem C1_tree_integration_signs (m : Mesh) (sources : List Nat) (X : List ℚ)
    (hwf : m.WF) (hnd : sources.Nodup) (hsrc : ∀ s ∈ sources, s < m.nv)
    (hconn : ∀ v < m.nv, Reach m sources v)
    (i : Nat) (hge : sources.length ≤ i)
    (hlt : i < (bfs_vertex_list m sources).length) :
    ((0 ≤ (transition_edge_idx m sources).getD i (-1) →
      (integrate_unscaled m sources X).getD
          ((bfs_vertex_list m sources).getD i 0) 0 =
        (integrate_unscaled m sources X).getD
            ((transition_from_vtx m sources).getD i (-1)).toNat 0 +
          X.getD ((transition_edge_idx m sources).getD i (-1)).toNat 0) ∧
     ((transition_edge_idx m sources).getD i (-1) < 0 →
      (integrate_unscaled m sources X).getD
          ((bfs_vertex_list m sources).getD i 0) 0 =
        (integrate_unscaled m sources X).getD
            ((transition_from_vtx m sources).getD i (-1)).toNat 0 -
          X.getD (-((transition_edge_idx m sources).getD i (-1) + 1)).toNat 0)) := by
  obtain ⟨hinv, ⟨tail, htail⟩, hlast, hlen1, hmono⟩ :=
    init_bfs_paths_inv m sources hwf hnd hsrc
  have htail' : bfs_segment_addr m sources = [0, sources.length] ++ tail := htail
  have hlast' : (bfs_segment_addr m sources).getLastD 0 =
      (init_bfs_paths m sources).1.order.length := hlast
  have hvlen : (bfs_vertex_list m sources).length =
      (init_bfs_paths m sources).1.order.length := by
    simp [bfs_vertex_list]
  have hilen : i < (init_bfs_paths m sources).1.order.length := by omega
  have hseg1 : (bfs_segment_addr m sources).getD 1 0 = sources.length := by
    rw [htail', getD_append_lt _ _ _ _ (by simp)]
    rfl
  have hlastgetD : (bfs_segment_addr m sources).getD
      ((bfs_segment_addr m sources).length - 1) 0 =
      (init_bfs_paths m sources).1.order.length := by
    rw [← getD_last_of_len (bfs_segment_addr m sources)
      ((bfs_segment_addr m sources).length - 1) 0 (by rw [htail']; simp)]
    exact hlast'
  have hL3 : 3 ≤ (bfs_segment_addr m sources).length := by
    rcases tail with _ | ⟨a, t⟩
    · exfalso
      have hsl : (bfs_segment_addr m sources).getLastD 0 = sources.length := by
        rw [htail']
        rfl
      rw [hsl] at hlast'
      omega
    · rw [htail']
      simp [List.length_append, List.length_cons]
  have hmono' : ∀ c, c + 1 < (bfs_segment_addr m sources).length →
      (bfs_segment_addr m sources).getD c 0 ≤
        (bfs_segment_addr m sources).getD (c+1) 0 := hmono
  have hbig : integrate_unscaled m sources X =
      (List.range' sources.length
        ((init_bfs_paths m sources).1.order.length - sources.length)).foldl
        (integrateAt X (bfs_vertex_list m sources) (transition_from_vtx m sources)
          (transition_edge_idx m sources)) (List.replicate m.nv 0) := by
    rw [integrate_unscaled, integrateLoopAux_eq_foldl _ _ _ _ _ hmono'
      (bfs_segment_addr m sources).length 1 (List.replicate m.nv 0) (le_refl 1)
      (by omega) (by omega), hseg1, hlastgetD]
  -- the processed range decomposes around position i
  have hsplit : List.range' sources.length
      ((init_bfs_paths m sources).1.order.length - sources.length) =
      List.range' sources.length (i - sources.length) ++
        i :: List.range' (i+1)
          ((init_bfs_paths m sources).1.order.length - (i+1)) := by
    have h1 := range'_append_simple sources.length (i - sources.length)
      ((init_bfs_paths m sources).1.order.length - i)
    rw [show sources.length + (i - sources.length) = i by omega] at h1
    rw [show i - sources.length + ((init_bfs_paths m sources).1.order.length - i) =
      (init_bfs_paths m sources).1.order.length - sources.length by omega] at h1
    rw [← h1,
      show (init_bfs_paths m sources).1.order.length - i =
        ((init_bfs_paths m sources).1.order.length - (i+1)) + 1 by omega,
      range'_cons]
  -- the entry at position i has a transition halfedge with its parent earlier
  obtain ⟨h, hsome⟩ := Option.isSome_iff_exists.1
    (hinv.parent_some i hge hilen)
  have hgetelem : (init_bfs_paths m sources).1.order[i]? =
      some ((init_bfs_paths m sources).1.order.getD i ((0:Nat), none)) := by
    rw [List.getD_eq_getElem _ _ hilen, List.getElem?_eq_getElem hilen]
  have hpair : (init_bfs_paths m sources).1.order.getD i ((0:Nat), none) =
      (((init_bfs_paths m sources).1.order.getD i ((0:Nat), none)).1, some h) := by
    rw [show ((init_bfs_paths m sources).1.order.getD i ((0:Nat), none)) =
      (((init_bfs_paths m sources).1.order.getD i ((0:Nat), none)).1,
       ((init_bfs_paths m sources).1.order.getD i ((0:Nat), none)).2) from rfl,
      hsome]
  obtain ⟨hto, j, hj, p, hpj, hpfst⟩ := hinv.parent i _ h (by rw [hgetelem, hpair])
  have hjlen : j < (init_bfs_paths m sources).1.order.length := by
    have := List.getElem?_eq_some_iff.1 hpj
    omega
  have hparentV : ((transition_from_vtx m sources).getD i (-1)).toNat =
      (bfs_vertex_list m sources).getD j 0 := by
    rw [tFrom_getD m sources i hilen, hsome, transition_tables_fst,
      Int.toNat_natCast, orderV_getD m sources j hjlen,
      List.getD_eq_getElem _ _ hjlen]
    have hpj' : (init_bfs_paths m sources).1.order[j] = p := by
      rw [List.getElem?_eq_getElem hjlen] at hpj
      exact Option.some_injective _ hpj
    rw [hpj', hpfst]
  have hordnodup : (bfs_vertex_list m sources).Nodup := hinv.nodup
  have hP₂ : ∀ q ∈ List.range' (i+1)
      ((init_bfs_paths m sources).1.order.length - (i+1)),
      (bfs_vertex_list m sources).getD q 0 ≠
        (bfs_vertex_list m sources).getD i 0 := by
    intro q hq
    rw [List.mem_range'_1] at hq
    exact nodup_getD_ne _ hordnodup q i (by omega) (by omega) (by omega)
  have hparent2 : ∀ q ∈ List.range' (i+1)
      ((init_bfs_paths m sources).1.order.length - (i+1)),
      (bfs_vertex_list m sources).getD q 0 ≠
        ((transition_from_vtx m sources).getD i (-1)).toNat := by
    intro q hq
    rw [List.mem_range'_1] at hq
    rw [hparentV]
    exact nodup_getD_ne _ hordnodup q j (by omega) (by omega) (by omega)
  have hparent_i : (bfs_vertex_list m sources).getD i 0 ≠
      ((transition_from_vtx m sources).getD i (-1)).toNat := by
    rw [hparentV]
    exact nodup_getD_ne _ hordnodup i j (by omega) (by omega) (by omega)
  have htlen : (bfs_vertex_list m sources).getD i 0 <
      (List.replicate m.nv (0:ℚ)).length := by
    rw [List.length_replicate]
    have hmem : (bfs_vertex_list m sources).getD i 0 ∈ bfs_vertex_list m sources :=
      getD_mem_of_lt _ _ (by omega) 0
    obtain ⟨q, hq, hfst⟩ := List.mem_map.1 hmem
    rw [← hfst]
    exact hinv.ordLT q hq
  have hform := integrate_foldl_formula X (bfs_vertex_list m sources)
    (transition_from_vtx m sources) (transition_edge_idx m sources)
    (List.range' sources.length (i - sources.length))
    (List.range' (i+1) ((init_bfs_paths m sources).1.order.length - (i+1)))
    i (List.replicate m.nv 0) htlen hP₂ hparent2 hparent_i
  rw [hbig, hsplit]
  exact hform

theorem C1_witness :
    (triMesh.WF ∧ ([0] : List Nat).Nodup ∧
      (∀ s ∈ ([0] : List Nat), s < triMesh.nv) ∧
      (∀ v < triMesh.nv, Reach triMesh [0] v) ∧
      ([0] : List Nat).length ≤ 2 ∧ 2 < (bfs_vertex_list triMesh [0]).length) ∧
    ((0 ≤ (transition_edge_idx triMesh [0]).getD 2 (-1) →
      (integrate_unscaled triMesh [0] [0, 0, 1]).getD
          ((bfs_vertex_list triMesh [0]).getD 2 0) 0 =
        (integrate_unscaled triMesh [0] [0, 0, 1]).getD
            ((transition_from_vtx triMesh [0]).getD 2 (-1)).toNat 0 +
          ([0, 0, 1] : List ℚ).getD
            ((transition_edge_idx triMesh [0]).getD 2 (-1)).toNat 0) ∧
     ((transition_edge_idx triMesh [0]).getD 2 (-1) < 0 →
      (integrate_unscaled triMesh [0] [0, 0, 1]).getD
          ((bfs_vertex_list triMesh [0]).getD 2 0) 0 =
        (integrate_unscaled triMesh [0] [0, 0, 1]).getD
            ((transition_from_vtx triMesh [0]).getD 2 (-1)).toNat 0 -
          ([0, 0, 1] : List ℚ).getD
            (-((transition_edge_idx triMesh [0]).getD 2 (-1) + 1)).toNat 0)) := by
  have hwf : triMesh.WF := ⟨by decide, by decide⟩
  have hconn : ∀ v < triMesh.nv, Reach triMesh [0] v := by
    intro v hv
    have hv3 : v < 3 := hv
    interval_cases v
    · exact Reach.source (by decide)
    · exact Reach.step (show Reach triMesh [0] 0 from Reach.source (by decide)) 0
        (by decide) (by decide)
    · exact Reach.step (show Reach triMesh [0] 0 from Reach.source (by decide)) 5
        (by decide) (by decide)
  exact ⟨⟨hwf, by decide, by decide, hconn, by decide, by decide⟩,
    C1_tree_integration_signs triMesh [0] [0, 0, 1] hwf (by decide) (by decide)
      hconn 2 (by decide) (by decide)⟩

theorem set_append_len {α : Type} (l : List α) (a b : α) :
    (l ++ [a]).set l.length b = l ++ [b] := by
  induction l with
  | nil => rfl
  | cons x t ih => simp [ih]

theorem set_fold_inner (g : Nat → Nat) (w : Nat → ℚ) (nIn j : Nat) (Y : List ℚ)
    (hj : j < nIn) (ht : g j < Y.length)
    (hdj : ∀ j', j' < nIn → j' ≠ j → g j' ≠ g j) :
    ((List.range nIn).foldl (fun hc j' => hc.set (g j') (w j')) Y).getD (g j) 0 =
      w j := by
  rw [List.range_eq_range']
  have hsplit : List.range' 0 nIn =
      List.range' 0 j ++ j :: List.range' (j+1) (nIn - (j+1)) := by
    have h1 := range'_append_simple 0 j (nIn - j)
    rw [show 0 + j = j by omega] at h1
    rw [show j + (nIn - j) = nIn by omega] at h1
    rw [← h1, show nIn - j = (nIn - (j+1)) + 1 by omega, range'_cons]
  rw [hsplit, List.foldl_append, List.foldl_cons]
  have hpre_len :
      ((List.range' 0 j).foldl (fun hc j' => hc.set (g j') (w j')) Y).length =
        Y.length :=
    foldl_length_invariant _ _ (fun Y' j' => List.length_set Y' (g j') (w j')) Y
  have hsuffix := foldl_getD_untouched (fun hc j' => hc.set (g j') (w j'))
    (List.range' (j+1) (nIn - (j+1))) (g j) 0 (fun Y' j' hj' => by
      rw [List.mem_range'_1] at hj'
      exact getD_set_ne _ _ _ _ _ (hdj j' (by omega) (by omega)))
  rw [hsuffix]
  exact getD_set_self _ _ _ _ (by rw [hpre_len]; exact ht)

theorem set_fold_outer (g : Nat → Nat → Nat) (w : Nat → Nat → ℚ)
    (nOut nIn f j : Nat) (init : List ℚ)
    (hf : f < nOut) (hj : j < nIn) (ht : g f j < init.length)
    (hdisj : ∀ f' j', f' < nOut → j' < nIn → (f', j') ≠ (f, j) →
      g f' j' ≠ g f j) :
    ((List.range nOut).foldl
      (fun hc f' => (List.range nIn).foldl
        (fun hc j' => hc.set (g f' j') (w f' j')) hc) init).getD (g f j) 0 =
      w f j := by
  have hFlen : ∀ (Y : List ℚ) (f' : Nat),
      ((List.range nIn).foldl (fun hc j' => hc.set (g f' j') (w f' j')) Y).length =
        Y.length := fun Y f' =>
    foldl_length_invariant _ _ (fun Y' j' => List.length_set Y' (g f' j') (w f' j')) Y
  rw [List.range_eq_range' nOut]
  have hsplit : List.range' 0 nOut =
      List.range' 0 f ++ f :: List.range' (f+1) (nOut - (f+1)) := by
    have h1 := range'_append_simple 0 f (nOut - f)
    rw [show 0 + f = f by omega] at h1
    rw [show f + (nOut - f) = nOut by omega] at h1
    rw [← h1, show nOut - f = (nOut - (f+1)) + 1 by omega, range'_cons]
  rw [hsplit, List.foldl_append, List.foldl_cons]
  have hsuffix := foldl_getD_untouched
    (fun hc f' => (List.range nIn).foldl
      (fun hc j' => hc.set (g f' j') (w f' j')) hc)
    (List.range' (f+1) (nOut - (f+1))) (g f j) 0 (fun Y' f' hf' => by
      rw [List.mem_range'_1] at hf'
      exact foldl_getD_untouched _ (List.range nIn) (g f j) 0 (fun Y'' j' hj' =>
        getD_set_ne _ _ _ _ _ (hdisj f' j' (by omega) (List.mem_range.1 hj')
          (by intro hp; rw [Prod.mk.injEq] at hp; omega))) Y')
  rw [hsuffix]
  have hpre_len : ((List.range' 0 f).foldl
      (fun hc f' => (List.range nIn).foldl
        (fun hc j' => hc.set (g f' j') (w f' j')) hc) init).length =
      init.length :=
    foldl_length_invariant _ _ (fun Y' f' => hFlen Y' f') init
  exact set_fold_inner (g f) (w f) nIn j _ hj (by rw [hpre_len]; exact ht)
    (fun j' hj' hne =>
      hdisj f j' hf hj' (by intro hp; rw [Prod.mk.injEq] at hp; omega))

theorem halfedge_halfcot_getD (m : Mesh) (sq : ℚ → ℚ) (f j : Nat)
    (hf : f < m.nf) (hj : j < 3) (hlt : face_halfedge m f j < 2 * m.ne)
    (hdisj : ∀ f' j', f' < m.nf → j' < 3 → (f', j') ≠ (f, j) →
      face_halfedge m f' j' ≠ face_halfedge m f j) :
    (halfedge_halfcot m sq).getD (face_halfedge m f j) 0 =
      face_corner_halfcot m sq f j := by
  rw [halfedge_halfcot]
  exact set_fold_outer (face_halfedge m) (face_corner_halfcot m sq) m.nf 3 f j
    (List.replicate (2 * m.ne) 0) hf hj
    (by rw [List.length_replicate]; exact hlt) hdisj

theorem face_corner_halfcot_div (m : Mesh) (sq : ℚ → ℚ) (f j : Nat) :
    face_corner_halfcot m sq f j =
      (face_edge_l2 m f ((j+1) % 3) + face_edge_l2 m f ((j+2) % 3) -
        face_edge_l2 m f j) / (8 * face_area m sq f) := by
  rw [face_corner_halfcot, ← div_div, one_div_mul_eq_div]

theorem lap_row_eq (m : Mesh) (sq : ℚ → ℚ) (v : Nat) :
    bfs_laplacian_coef_row m sq v =
      (m.halfedgesOf v).map
        (fun h => (m.toV h, step_length m sq * halfedge_weight m sq h)) ++
      [(v, step_length m sq *
          ((m.halfedgesOf v).map (halfedge_weight m sq)).sum +
        vertex_area m sq v)] := by
  simp only [bfs_laplacian_coef_row, lap_vtx_idx, lap_weights]
  rw [List.map_append]
  simp only [List.map_cons, List.map_nil]
  have hWlen : (((m.halfedgesOf v).map (halfedge_weight m sq)).map
      (fun w => step_length m sq * w)).length =
      ((m.halfedgesOf v).map (halfedge_weight m sq)).length :=
    List.length_map _ _
  rw [← hWlen, getD_append_len, set_append_len]
  have hlen2 : ((m.halfedgesOf v).map m.toV).length =
      (((m.halfedgesOf v).map (halfedge_weight m sq)).map
        (fun w => step_length m sq * w)).length := by
    simp
  rw [List.zip_append hlen2, List.map_map, List.zip_map']
  simp [Function.comp]

/--
**C6**: Laplacian assembly.  For every face `f` and corner `j < 3` whose
halfedge slot is hit by no other face-corner write, the stored
per-halfedge half-cotangent equals
`(l2_((j+1)%3) + l2_((j+2)%3) - l2_j) / (8 * area(f))`; and for every
BFS position `i`, the compressed Laplacian row of the vertex stored
there lists `(neighbor, step_length * (halfcot[h] + halfcot[opp h]))`
for each incident halfedge, followed by a final diagonal entry
`step_length * (sum of the neighbor cotangent weights) +
vertex_area(self)`.
-/
theorem C6_laplacian_assembly (m : Mesh) (sq : ℚ → ℚ) (sources : List Nat)
    (f j : Nat) (hf : f < m.nf) (hj : j < 3)
    (hlt : face_halfedge m f j < 2 * m.ne)
    (hdisj : ∀ f' j', f' < m.nf → j' < 3 → (f', j') ≠ (f, j) →
      face_halfedge m f' j' ≠ face_halfedge m f j)
    (i : Nat) :
    (halfedge_halfcot m sq).getD (face_halfedge m f j) 0 =
      (face_edge_l2 m f ((j+1) % 3) + face_edge_l2 m f ((j+2) % 3) -
        face_edge_l2 m f j) / (8 * face_area m sq f) ∧
    bfs_laplacian_coef_row m sq ((bfs_vertex_list m sources).getD i 0) =
      (m.halfedgesOf ((bfs_vertex_list m sources).getD i 0)).map
        (fun h => (m.toV h, step_length m sq * halfedge_weight m sq h)) ++
      [(((bfs_vertex_list m sources).getD i 0),
        step_length m sq *
          ((m.halfedgesOf ((bfs_vertex_list m sources).getD i 0)).map
            (halfedge_weight m sq)).sum +
        vertex_area m sq ((bfs_vertex_list m sources).getD i 0))] := by
  constructor
  · rw [halfedge_halfcot_getD m sq f j hf hj hlt hdisj]
    exact face_corner_halfcot_div m sq f j
  · exact lap_row_eq m sq ((bfs_vertex_list m sources).getD i 0)

theorem C6_witness :
    ((0 < triMesh.nf) ∧ ((0:Nat) < 3) ∧
      (face_halfedge triMesh 0 0 < 2 * triMesh.ne) ∧
      (∀ f' j', f' < triMesh.nf → j' < 3 → (f', j') ≠ ((0:Nat), (0:Nat)) →
        face_halfedge triMesh f' j' ≠ face_halfedge triMesh 0 0)) ∧
    ((halfedge_halfcot triMesh id).getD (face_halfedge triMesh 0 0) 0 =
      (face_edge_l2 triMesh 0 ((0+1) % 3) + face_edge_l2 triMesh 0 ((0+2) % 3) -
        face_edge_l2 triMesh 0 0) / (8 * face_area triMesh id 0) ∧
     bfs_laplacian_coef_row triMesh id ((bfs_vertex_list triMesh [0]).getD 0 0) =
      (triMesh.halfedgesOf ((bfs_vertex_list triMesh [0]).getD 0 0)).map
        (fun h => (triMesh.toV h, step_length triMesh id * halfedge_weight triMesh id h)) ++
      [(((bfs_vertex_list triMesh [0]).getD 0 0),
        step_length triMesh id *
          ((triMesh.halfedgesOf ((bfs_vertex_list triMesh [0]).getD 0 0)).map
            (halfedge_weight triMesh id)).sum +
        vertex_area triMesh id ((bfs_vertex_list triMesh [0]).getD 0 0))]) := by
  have hdisj : ∀ f' j', f' < triMesh.nf → j' < 3 → (f', j') ≠ ((0:Nat), (0:Nat)) →
      face_halfedge triMesh f' j' ≠ face_halfedge triMesh 0 0 := by
    intro f' j' hf' hj' hne
    have hf1 : f' < 1 := hf'
    interval_cases f'
    interval_cases j'
    · exact absurd rfl hne
    · decide
    · decide
  exact ⟨⟨by decide, by decide, by decide, hdisj⟩,
    C6_laplacian_assembly triMesh id [0] 0 0 (by decide) (by decide) (by decide)
      hdisj 0⟩

theorem gsBody_reset (ctx : GsCtx) (st : GsState)
    (h : st.segment_count + 1 = ctx.nSegments) :
    gsBody ctx st =
      (⟨gs_process_segment ctx.lap ctx.lapAddr ctx.segAddr ctx.orderV ctx.isv
          st.segment_count st.d, 0, st.gs_iter + 1⟩,
       if ctx.maxIter ≤ ((st.gs_iter + 1 : Nat) : Int) then true
       else if ((st.gs_iter + 1 : Nat) : Int) % ctx.freq = 0 then
         gsResOk ctx (gs_process_segment ctx.lap ctx.lapAddr ctx.segAddr
           ctx.orderV ctx.isv st.segment_count st.d)
       else false) := by
  by_cases h1 : ctx.maxIter ≤ ((st.gs_iter + 1 : Nat) : Int)
  · simp only [gsBody, if_pos h, if_pos h1]
  · by_cases h2 : ((st.gs_iter + 1 : Nat) : Int) % ctx.freq = 0
    · simp only [gsBody, if_pos h, if_neg h1, if_pos h2]
    · simp only [gsBody, if_pos h, if_neg h1, if_neg h2]

theorem gsBody_mid (ctx : GsCtx) (st : GsState)
    (h : st.segment_count + 1 ≠ ctx.nSegments)
    (hk : ¬ ctx.maxIter ≤ ((st.gs_iter : Nat) : Int)) :
    gsBody ctx st =
      (⟨gs_process_segment ctx.lap ctx.lapAddr ctx.segAddr ctx.orderV ctx.isv
          st.segment_count st.d, st.segment_count + 1, st.gs_iter⟩, false) := by
  simp only [gsBody, if_neg h, if_neg hk]

theorem sweepFrom_last (ctx : GsCtx) (d : List ℚ) (hseg : 1 ≤ ctx.nSegments) :
    sweepFrom ctx (ctx.nSegments - 1) d =
      gs_process_segment ctx.lap ctx.lapAddr ctx.segAddr ctx.orderV ctx.isv
        (ctx.nSegments - 1) d := by
  rw [sweepFrom, show ctx.nSegments - (ctx.nSegments - 1) = 1 by omega]
  rfl

theorem sweepFrom_peel (ctx : GsCtx) (sc : Nat) (d : List ℚ)
    (hsc : sc < ctx.nSegments) :
    sweepFrom ctx sc d =
      sweepFrom ctx (sc + 1)
        (gs_process_segment ctx.lap ctx.lapAddr ctx.segAddr ctx.orderV ctx.isv
          sc d) := by
  rw [sweepFrom, sweepFrom,
    show ctx.nSegments - sc = (ctx.nSegments - (sc + 1)) + 1 by omega,
    range'_cons, List.foldl_cons]

theorem gsLoop_segments (ctx : GsCtx) :
    ∀ (j fuel : Nat) (d : List ℚ) (k : Nat),
      1 ≤ j → j ≤ ctx.nSegments → j ≤ fuel →
      ¬ ctx.maxIter ≤ (k : Int) →
      gsLoopAux ctx fuel ⟨d, ctx.nSegments - j, k⟩ =
        (if ctx.maxIter ≤ ((k + 1 : Nat) : Int) ∨
            (((k + 1 : Nat) : Int) % ctx.freq = 0 ∧
              gsResOk ctx (sweepFrom ctx (ctx.nSegments - j) d) = true) then
          (⟨sweepFrom ctx (ctx.nSegments - j) d, 0, k + 1⟩ : GsState)
        else
          gsLoopAux ctx (fuel - j)
            ⟨sweepFrom ctx (ctx.nSegments - j) d, 0, k + 1⟩) := by
  intro j
  induction j with
  | zero => intro fuel d k h1; exact absurd h1 (by omega)
  | succ j ih =>
    intro fuel d k hj1 hjle hjf hk
    obtain ⟨f, rfl⟩ : ∃ f, fuel = f + 1 := ⟨fuel - 1, by omega⟩
    by_cases hj0 : j = 0
    · subst hj0
      have hsc1 : (ctx.nSegments - 1) + 1 = ctx.nSegments := by omega
      have hbody := gsBody_reset ctx ⟨d, ctx.nSegments - 1, k⟩ (by exact hsc1)
      dsimp only at hbody
      rw [show (1:Nat) = 0 + 1 from rfl] at hjle hjf ⊢
      simp only [Nat.zero_add] at hjle hjf ⊢
      simp only [gsLoopAux, hbody]
      rw [sweepFrom_last ctx d (by omega)]
      by_cases h1 : ctx.maxIter ≤ ((k + 1 : Nat) : Int)
      · rw [if_pos h1, if_pos (Or.inl h1)]
        simp
      · rw [if_neg h1]
        by_cases h2 : ((k + 1 : Nat) : Int) % ctx.freq = 0
        · rw [if_pos h2]
          by_cases h3 : gsResOk ctx
              (gs_process_segment ctx.lap ctx.lapAddr ctx.segAddr ctx.orderV
                ctx.isv (ctx.nSegments - 1) d) = true
          · rw [if_pos (Or.inr ⟨h2, h3⟩)]
            simp [h3]
          · have hcond : ¬ (ctx.maxIter ≤ ((k + 1 : Nat) : Int) ∨
                (((k + 1 : Nat) : Int) % ctx.freq = 0 ∧
                  gsResOk ctx (gs_process_segment ctx.lap ctx.lapAddr ctx.segAddr
                    ctx.orderV ctx.isv (ctx.nSegments - 1) d) = true)) := by
              rintro (hA | ⟨hB, hR⟩)
              · exact h1 hA
              · exact h3 hR
            rw [if_neg hcond]
            simp only [Bool.not_eq_true] at h3
            simp [h3, Nat.add_sub_cancel]
        · have hcond : ¬ (ctx.maxIter ≤ ((k + 1 : Nat) : Int) ∨
              (((k + 1 : Nat) : Int) % ctx.freq = 0 ∧
                gsResOk ctx (gs_process_segment ctx.lap ctx.lapAddr ctx.segAddr
                  ctx.orderV ctx.isv (ctx.nSegments - 1) d) = true)) := by
            rintro (hA | ⟨hB, hR⟩)
            · exact h1 hA
            · exact h2 hB
          rw [if_neg h2, if_neg hcond]
          simp [Nat.add_sub_cancel]
    · have hsc1 : (ctx.nSegments - (j + 1)) + 1 ≠ ctx.nSegments := by omega
      have hbody := gsBody_mid ctx ⟨d, ctx.nSegments - (j + 1), k⟩ hsc1 hk
      dsimp only at hbody
      simp only [gsLoopAux, hbody]
      simp only [if_neg (show ¬ (false = true) by simp)]
      have hstep : ctx.nSegments - (j + 1) + 1 = ctx.nSegments - j := by omega
      rw [hstep]
      have hpeel := sweepFrom_peel ctx (ctx.nSegments - (j + 1)) d (by omega)
      rw [hpeel, hstep]
      rw [ih f
        (gs_process_segment ctx.lap ctx.lapAddr ctx.segAddr ctx.orderV ctx.isv
          (ctx.nSegments - (j + 1)) d) k (by omega) (by omega) (by omega) hk]
      rw [show f - j = f + 1 - (j + 1) by omega]

theorem gsLoop_characterization (ctx : GsCtx) (d0 : List ℚ)
    (hseg : 1 ≤ ctx.nSegments) :
    ∀ (r k fuel : Nat),
      ¬ ctx.maxIter ≤ (k : Int) →
      ctx.maxIter.toNat ≤ k + r →
      ctx.nSegments * r ≤ fuel →
      (gsLoopAux ctx fuel ⟨dAfter ctx d0 k, 0, k⟩).segment_count = 0 ∧
      k < (gsLoopAux ctx fuel ⟨dAfter ctx d0 k, 0, k⟩).gs_iter ∧
      (gsLoopAux ctx fuel ⟨dAfter ctx d0 k, 0, k⟩).gs_iter ≤ ctx.maxIter.toNat ∧
      (gsLoopAux ctx fuel ⟨dAfter ctx d0 k, 0, k⟩).d =
        dAfter ctx d0 ((gsLoopAux ctx fuel ⟨dAfter ctx d0 k, 0, k⟩).gs_iter) ∧
      ((gsLoopAux ctx fuel ⟨dAfter ctx d0 k, 0, k⟩).gs_iter < ctx.maxIter.toNat ↔
        ∃ k', k < k' ∧ k' < ctx.maxIter.toNat ∧ gsStopsAt ctx d0 k') := by
  intro r
  induction r with
  | zero =>
    intro k fuel hk hkr
    exfalso
    have h1 : (ctx.maxIter : Int) ≤ (ctx.maxIter.toNat : Int) :=
      Int.self_le_toNat ctx.maxIter
    have h2 : (ctx.maxIter.toNat : Int) ≤ (k : Int) := by exact_mod_cast hkr
    exact hk (le_trans h1 h2)
  | succ r ih =>
    intro k fuel hk hkr hf
    have hf' : ctx.nSegments * r + ctx.nSegments ≤ fuel :=
      le_trans (le_of_eq (by rw [Nat.mul_succ])) hf
    have hfn : ctx.nSegments ≤ fuel := by omega
    have heq := gsLoop_segments ctx ctx.nSegments fuel (dAfter ctx d0 k) k hseg
      (le_refl _) hfn hk
    rw [Nat.sub_self] at heq
    rw [show sweepFrom ctx 0 (dAfter ctx d0 k) = dAfter ctx d0 (k + 1) from rfl]
      at heq
    rw [heq]
    by_cases hP : ctx.maxIter ≤ ((k + 1 : Nat) : Int) ∨
        (((k + 1 : Nat) : Int) % ctx.freq = 0 ∧
          gsResOk ctx (dAfter ctx d0 (k + 1)) = true)
    · rw [if_pos hP]
      have hk1le : k + 1 ≤ ctx.maxIter.toNat := by omega
      refine ⟨rfl, Nat.lt_succ_self k, hk1le, rfl, ?_, ?_⟩
      · intro hlt
        have hlt' : k + 1 < ctx.maxIter.toNat := hlt
        rcases hP with hA | ⟨hB, hR⟩
        · exfalso
          omega
        · exact ⟨k + 1, Nat.lt_succ_self k, hlt', hB, hR⟩
      · rintro ⟨k', hk'1, hk'2, _⟩
        show k + 1 < ctx.maxIter.toNat
        omega
    · rw [if_neg hP]
      have hk1 : ¬ ctx.maxIter ≤ ((k + 1 : Nat) : Int) := fun hA => hP (Or.inl hA)
      have hrec := ih (k + 1) (fuel - ctx.nSegments) hk1 (by omega) (by omega)
      obtain ⟨hc0, hc1, hc2, hc3, hc4⟩ := hrec
      refine ⟨hc0, lt_trans (Nat.lt_succ_self k) hc1, hc2, hc3, ?_, ?_⟩
      · intro hlt
        obtain ⟨k', hk'1, hk'2, hstop⟩ := hc4.1 hlt
        exact ⟨k', lt_trans (Nat.lt_succ_self k) hk'1, hk'2, hstop⟩
      · rintro ⟨k', hk'1, hk'2, hstop⟩
        by_cases hke : k' = k + 1
        · exfalso
          subst hke
          exact hP (Or.inr ⟨hstop.1, hstop.2⟩)
        · exact hc4.2 ⟨k', by omega, hk'2, hstop⟩

/--
**C5**: termination of the heat Gauss-Seidel loop.  With at least one
BFS segment, a positive iteration budget, and the squared threshold
derived from the initial residual
(`eps = max(1e-16, initial_residual_norm * heat_solver_eps)`, compared
on squares), the loop performs at most `heat_solver_max_iter` outer
iterations, always exits at a segment boundary, leaves the heat vector
produced by exactly `gs_iter` complete sweeps, and stops before the
budget exactly when some outer count that is a multiple of
`heat_solver_convergence_check_frequency` passes the residual test.
-/
theorem C5_gs_termination (ctx : GsCtx) (d0 : List ℚ) (heatEps : ℚ)
    (hseg : 1 ≤ ctx.nSegments) (hmax : 1 ≤ ctx.maxIter)
    (heps : ctx.epsSq = heat_eps_sq
      (resNormSq (heat_residual ctx.lap ctx.lapAddr ctx.nv ctx.nsrc ctx.isv d0))
      heatEps) :
    (gauss_seidel_loop ctx d0).gs_iter ≤ ctx.maxIter.toNat ∧
    (gauss_seidel_loop ctx d0).segment_count = 0 ∧
    (gauss_seidel_loop ctx d0).d =
      dAfter ctx d0 (gauss_seidel_loop ctx d0).gs_iter ∧
    ((gauss_seidel_loop ctx d0).gs_iter < ctx.maxIter.toNat ↔
      ∃ k, 0 < k ∧ k < ctx.maxIter.toNat ∧ (k : Int) % ctx.freq = 0 ∧
        gsResOk ctx (dAfter ctx d0 k) = true) := by
  have h := gsLoop_characterization ctx d0 hseg ctx.maxIter.toNat 0
    (ctx.maxIter.toNat * ctx.nSegments) (by omega) (by omega)
    (le_of_eq (Nat.mul_comm ctx.nSegments ctx.maxIter.toNat))
  rw [show dAfter ctx d0 0 = d0 from rfl] at h
  obtain ⟨hc0, hc1, hc2, hc3, hc4⟩ := h
  have hloop : gauss_seidel_loop ctx d0 =
      gsLoopAux ctx (ctx.maxIter.toNat * ctx.nSegments) ⟨d0, 0, 0⟩ := rfl
  rw [hloop]
  refine ⟨hc2, hc0, hc3, ?_⟩
  rw [hc4]
  constructor
  · rintro ⟨k, hk1, hk2, hs1, hs2⟩
    exact ⟨k, hk1, hk2, hs1, hs2⟩
  · rintro ⟨k, hk1, hk2, hs1, hs2⟩
    exact ⟨k, hk1, hk2, hs1, hs2⟩

set_option maxRecDepth 4000 in
theorem C5_witness :
    (1 ≤ demoGsCtx.nSegments ∧ 1 ≤ demoGsCtx.maxIter ∧
      demoGsCtx.epsSq = heat_eps_sq
        (resNormSq (heat_residual demoGsCtx.lap demoGsCtx.lapAddr demoGsCtx.nv
          demoGsCtx.nsrc demoGsCtx.isv [0])) 0) ∧
    ((gauss_seidel_loop demoGsCtx [0]).gs_iter ≤ demoGsCtx.maxIter.toNat ∧
     (gauss_seidel_loop demoGsCtx [0]).segment_count = 0 ∧
     (gauss_seidel_loop demoGsCtx [0]).d =
       dAfter demoGsCtx [0] (gauss_seidel_loop demoGsCtx [0]).gs_iter ∧
     ((gauss_seidel_loop demoGsCtx [0]).gs_iter < demoGsCtx.maxIter.toNat ↔
       ∃ k, 0 < k ∧ k < demoGsCtx.maxIter.toNat ∧
         (k : Int) % demoGsCtx.freq = 0 ∧
         gsResOk demoGsCtx (dAfter demoGsCtx [0] k) = true)) := by
  have hres : resNormSq (heat_residual demoGsCtx.lap demoGsCtx.lapAddr
      demoGsCtx.nv demoGsCtx.nsrc demoGsCtx.isv [0]) = 1 := by
    with_unfolding_all decide
  have heps : demoGsCtx.epsSq = heat_eps_sq
      (resNormSq (heat_residual demoGsCtx.lap demoGsCtx.lapAddr demoGsCtx.nv
        demoGsCtx.nsrc demoGsCtx.isv [0])) 0 := by
    rw [hres]
    rfl
  refine ⟨⟨by decide, by decide, heps⟩, ?_⟩
  exact C5_gs_termination demoGsCtx [0] 0 (by decide) (by decide) heps

end ParaHeat
